import Mathlib

set_option maxHeartbeats 1000000
set_option maxRecDepth 10000

/-!
Shallow embedding of `schedsim.py`: a tick-driven single-processor scheduling
simulator with FIFO, round-robin and SRTN policies, a job loader and a
statistics reporter.

Conventions of the embedding:
* Python integers are modelled as `Int` (times, bursts, quantum) except list
  indices and job numbers, which are `Nat`.
* The `while` loops of `Scheduler.scheduler_fifo` / `scheduler_rr` /
  `scheduler_srtn` are modelled by a fuel-indexed driver `runLoop` over a
  per-policy loop-body function; `none` means the loop did not finish within
  the given fuel (in particular, a run that is `none` for every fuel never
  terminates).  Python's in-place mutation of the job objects aliased by
  `job_list` is modelled by explicit write-back (`List.set`) at the index of
  the currently scheduled job.
* `ZeroDivisionError` in `Scheduler.stat` is modelled as `none`.
-/

/-- `Job` of `schedsim.py`: arrival/burst data plus scheduling-derived fields.
`first_time_running` and `completion_time` use the source's `-1` sentinel. -/
structure Job where
  arrival_time : Int
  remaining_burst_time : Int
  total_run_time : Int
  job_number : Nat
  first_time_running : Int
  completion_time : Int
  is_first_run : Bool
deriving Repr, DecidableEq

instance : Inhabited Job := ⟨⟨0, 0, 0, 0, -1, -1, true⟩⟩

/-- `Job.__init__`: fresh job with `remaining_burst_time = total_run_time = run_time`. -/
def mkJob (run_time arrival_time : Int) (job_number : Nat) : Job :=
  { arrival_time := arrival_time
    remaining_burst_time := run_time
    total_run_time := run_time
    job_number := job_number
    first_time_running := -1
    completion_time := -1
    is_first_run := true }

/-- `Job.compute_turnaround_time`: completion time - arrival time. -/
def Job.compute_turnaround_time (j : Job) : Int :=
  j.completion_time - j.arrival_time

/-- `Job.compute_response_time`: first run time - arrival time. -/
def Job.compute_response_time (j : Job) : Int :=
  j.first_time_running - j.arrival_time

/-- `Job.compute_wait_time`: turnaround time - run time. -/
def Job.compute_wait_time (j : Job) : Int :=
  j.compute_turnaround_time - j.total_run_time

/-- The mutable state of `Scheduler` (the `schedule` function attribute is
modelled by calling the corresponding policy function directly). -/
structure Scheduler where
  job_list : List Job
  completed_jobs : List Job
  num_jobs : Nat
  num_jobs_completed : Nat
  quantum : Int
  total_time : Int
  print_str : String
deriving Repr, DecidableEq

/-- `Scheduler.__init__(quantum)`. -/
def initScheduler (quantum : Int) : Scheduler :=
  { job_list := []
    completed_jobs := []
    num_jobs := 0
    num_jobs_completed := 0
    quantum := quantum
    total_time := 0
    print_str := "" }

/-- `Scheduler.submit_jobs`: append each job and bump `num_jobs`. -/
def submit_jobs (s : Scheduler) (jobs : List Job) : Scheduler :=
  { s with job_list := s.job_list ++ jobs, num_jobs := s.num_jobs + jobs.length }

/-- Python's `str * n` for a non-negative count (negative counts give `""`). -/
def mulStr (str : String) (n : Int) : String :=
  String.join (List.replicate n.toNat str)

/-- The per-tick trace label `f"[P{job_number}]"`. -/
def jobLabel (n : Nat) : String :=
  "[P" ++ toString n ++ "]"

/-- Python's `min(...)` restricted to elements satisfying `p`, returning the
index (in `l`) of the first element achieving the minimal key, or `none` if no
element satisfies `p`.  `min` keeps the first minimum because it replaces the
current best only on a strictly smaller key. -/
def argminFilteredAux (p : Job → Bool) (key : Job → Int) :
    List Job → Nat → Option (Nat × Int)
  | [], _ => none
  | j :: rest, i =>
    let r := argminFilteredAux p key rest (i + 1)
    if p j then
      match r with
      | none => some (i, key j)
      | some (bi, bv) => if key j ≤ bv then some (i, key j) else some (bi, bv)
    else r

def argminFiltered (p : Job → Bool) (key : Job → Int) (l : List Job) : Option Nat :=
  (argminFilteredAux p key l 0).map Prod.fst

/-- One iteration of the body of a scheduler `while` loop: takes the state and
the index of the currently scheduled job, returns the new state and index
(`none` models an out-of-range list access, which no reachable state performs). -/
def fifoStep (s : Scheduler) (i : Nat) : Option (Scheduler × Nat) :=
  match s.job_list[i]? with
  | none => none
  | some scheduled =>
    if s.total_time < scheduled.arrival_time then
      -- idle one tick and retry the same index (`continue`)
      some ({ s with total_time := s.total_time + 1,
                     print_str := s.print_str ++ "[--]" }, i)
    else
      let scheduled1 := { scheduled with first_time_running := s.total_time }
      let t := s.total_time + scheduled1.remaining_burst_time
      let scheduled2 := { scheduled1 with completion_time := t }
      let ps := s.print_str ++ mulStr (jobLabel scheduled2.job_number) scheduled2.remaining_burst_time
      let scheduled3 := { scheduled2 with remaining_burst_time := 0 }
      some ({ s with total_time := t
                     print_str := ps
                     job_list := s.job_list.set i scheduled3
                     completed_jobs := s.completed_jobs ++ [scheduled3]
                     num_jobs_completed := s.num_jobs_completed + 1 }, i + 1)

/-- One iteration of the body of `scheduler_rr`'s `while` loop. -/
def rrStep (s : Scheduler) (i : Nat) : Option (Scheduler × Nat) :=
  match s.job_list[i]? with
  | none => none
  | some scheduled =>
    if s.total_time < scheduled.arrival_time then
      some ({ s with total_time := s.total_time + 1,
                     print_str := s.print_str ++ "[--]" }, i)
    else
      let scheduled1 :=
        if scheduled.is_first_run then
          { scheduled with first_time_running := s.total_time, is_first_run := false }
        else scheduled
      let s1 := { s with job_list := s.job_list.set i scheduled1 }
      let s2 :=
        if scheduled1.remaining_burst_time ≤ s.quantum ∧ 0 < scheduled1.remaining_burst_time then
          -- remaining burst in (0, quantum]: run to completion in this visit
          let t := s1.total_time + scheduled1.remaining_burst_time
          let scheduled2 := { scheduled1 with completion_time := t, remaining_burst_time := 0 }
          { s1 with total_time := t
                    print_str := s1.print_str ++ mulStr (jobLabel scheduled1.job_number) scheduled1.remaining_burst_time
                    job_list := s1.job_list.set i scheduled2
                    completed_jobs := s1.completed_jobs ++ [scheduled2]
                    num_jobs_completed := s1.num_jobs_completed + 1 }
        else if 0 < scheduled1.remaining_burst_time then
          -- run one quantum slice
          let scheduled2 := { scheduled1 with remaining_burst_time := scheduled1.remaining_burst_time - s.quantum }
          { s1 with total_time := s1.total_time + s.quantum
                    print_str := s1.print_str ++ mulStr (jobLabel scheduled1.job_number) s.quantum
                    job_list := s1.job_list.set i scheduled2 }
        else s1
      some (s2, if i = s.num_jobs - 1 then 0 else i + 1)

/-- One iteration of the body of `scheduler_srtn`'s `while` loop; the `Nat`
argument is the index of the job the Python variable `scheduled` refers to. -/
def srtnStep (s : Scheduler) (i : Nat) : Option (Scheduler × Nat) :=
  match s.job_list[i]? with
  | none => none
  | some scheduled =>
    if s.total_time < scheduled.arrival_time then
      some ({ s with total_time := s.total_time + 1,
                     print_str := s.print_str ++ "[--]" }, i)
    else
      let scheduled1 :=
        if scheduled.is_first_run then
          { scheduled with first_time_running := s.total_time, is_first_run := false }
        else scheduled
      let s1 := { s with job_list := s.job_list.set i scheduled1 }
      if 0 < scheduled1.remaining_burst_time then
        let scheduled2 := { scheduled1 with remaining_burst_time := scheduled1.remaining_burst_time - 1 }
        let t := s1.total_time + 1
        let jl := s1.job_list.set i scheduled2
        let ps := s1.print_str ++ jobLabel scheduled2.job_number
        -- `filtered_jobs`, computed after the decrement and the tick
        let cand := argminFiltered
          (fun j => decide (j.arrival_time ≤ t) && decide (0 < j.remaining_burst_time))
          Job.remaining_burst_time jl
        let s2 :=
          if scheduled2.remaining_burst_time = 0 then
            let scheduled3 := { scheduled2 with completion_time := t }
            { s1 with total_time := t
                      print_str := ps
                      job_list := jl.set i scheduled3
                      completed_jobs := s1.completed_jobs ++ [scheduled3]
                      num_jobs_completed := s1.num_jobs_completed + 1 }
          else
            { s1 with total_time := t, print_str := ps, job_list := jl }
        -- if another job remains, schedule it; otherwise keep the current one
        some (s2, cand.getD i)
      else
        some (s1, i)

/-- Fuel-indexed driver for `while self.num_jobs != self.num_jobs_completed`. -/
def runLoop (step : Scheduler → Nat → Option (Scheduler × Nat)) :
    Nat → Scheduler → Nat → Option Scheduler
  | 0, _, _ => none
  | fuel + 1, s, i =>
    if s.num_jobs = s.num_jobs_completed then some s
    else
      match step s i with
      | none => none
      | some (s', i') => runLoop step fuel s' i'

/-- `Scheduler.scheduler_fifo`. -/
def scheduler_fifo (fuel : Nat) (s : Scheduler) : Option Scheduler :=
  if s.job_list.length = 0 then some s
  else runLoop fifoStep fuel s 0

/-- `Scheduler.scheduler_rr`. -/
def scheduler_rr (fuel : Nat) (s : Scheduler) : Option Scheduler :=
  if s.job_list.length = 0 then some s
  else runLoop rrStep fuel s 0

/-- `Scheduler.scheduler_srtn`.  The initial `scheduled` is
`min(self.job_list, key=arrival_time)` (first minimum). -/
def scheduler_srtn (fuel : Nat) (s : Scheduler) : Option Scheduler :=
  if s.job_list.length = 0 then some s
  else
    match argminFiltered (fun _ => true) Job.arrival_time s.job_list with
    | none => none
    | some i => runLoop srtnStep fuel s i

/-- Stable insertion keeping the existing elements with key `≤ key j` in front
of `j`: the building block of a model of Python's stable `list.sort`. -/
def insertStable (key : Job → Int) (j : Job) : List Job → List Job
  | [] => [j]
  | x :: xs => if key x ≤ key j then x :: insertStable key j xs else j :: x :: xs

/-- Python's stable `list.sort(key=...)` modelled as a stable insertion sort. -/
def sortStable (key : Job → Int) (l : List Job) : List Job :=
  l.foldl (fun acc j => insertStable key j acc) []

/-- The loop body of `Job.read_jobs`: each parsed line `<run_time> <arrival_time>`
becomes a `Job` whose `job_number` is the 0-based line index in the raw file. -/
def parseJobs (lines : List (Int × Int)) : List Job :=
  lines.enum.map (fun p => mkJob p.2.1 p.2.2 p.1)

/-- `Job.read_jobs` after parsing: build the jobs in line order and sort them
(stably) by arrival time. -/
def read_jobs (lines : List (Int × Int)) : List Job :=
  sortStable Job.arrival_time (parseJobs lines)

/-- The ordering that captures stability: strictly smaller key, or equal keys
in original input order (`job_number` is the 0-based raw position). -/
def StableBefore (key : Job → Int) (a b : Job) : Prop :=
  key a < key b ∨ (key a = key b ∧ a.job_number < b.job_number)


/-- What FIFO's one-shot dispatch at clock `t` does to a job: `firstRunTime`
becomes `max t arrivalTime` (the clock after idling up to the arrival),
`completionTime` that start plus the remaining burst, remaining burst 0. -/
def fifoFinish (t : Int) (j : Job) : Job :=
  { j with first_time_running := max t j.arrival_time
           completion_time := max t j.arrival_time + j.remaining_burst_time
           remaining_burst_time := 0 }

/-- Closed form of the whole FIFO loop: finalise the jobs in list order,
threading the clock through the completion times. -/
def fifoProcess : Int → List Job → List Job
  | _, [] => []
  | t, j :: rest =>
    let j2 := fifoFinish t j
    j2 :: fifoProcess j2.completion_time rest

/-- `g` idle ticks: what the arrival-wait branch does to the state. -/
def idleN : Nat → Scheduler → Scheduler
  | 0, s => s
  | g + 1, s => idleN g { s with total_time := s.total_time + 1
                                 print_str := s.print_str ++ "[--]" }


/-- Invariant of a job in the rotation at clock `t`: once dispatched
(first-run flag cleared), its `first_time_running` lies between its arrival
and the current clock. -/
def ValidJob (t : Int) (j : Job) : Prop :=
  j.is_first_run = false →
    j.arrival_time ≤ j.first_time_running ∧ j.first_time_running ≤ t

/-- What C8 asserts of every completed job. -/
def CompletedOK (j : Job) : Prop :=
  j.arrival_time ≤ j.first_time_running ∧
  j.first_time_running ≤ j.completion_time

/-! Concrete states used by counterexamples and witnesses. -/

/-- The spec's example job set `[(burst=5,arr=0), (burst=3,arr=1), (burst=8,arr=2)]`. -/
def exampleJobs : List Job := [mkJob 5 0 0, mkJob 3 1 1, mkJob 8 2 2]

/-- Scheduler holding the example jobs, quantum 1. -/
def exampleInit : Scheduler := submit_jobs (initScheduler 1) exampleJobs

/-- Scheduler holding the example jobs, quantum 2 (the RR example). -/
def exampleInitQ2 : Scheduler := submit_jobs (initScheduler 2) exampleJobs

/-- The result of the round-robin quantum-2 run on the example jobs. -/
def rrExampleRun : Scheduler :=
  (scheduler_rr 30 (submit_jobs (initScheduler 2) exampleJobs)).getD (initScheduler 2)

/-- Job 1 as it appears among `rrExampleRun`'s completed jobs. -/
def rrExampleJob1 : Job := ⟨1, 0, 3, 1, 2, 9, false⟩

/-- SRTN input with an idle gap after the first completion:
`[(burst=1,arr=0), (burst=1,arr=2)]`. -/
def srtnGapInit : Scheduler := submit_jobs (initScheduler 1) [mkJob 1 0 0, mkJob 1 2 1]

/-- The state `scheduler_srtn` reaches on `srtnGapInit` after one loop
iteration: job 0 is completed at tick 1, job 1 arrives only at tick 2, and the
loop keeps visiting the finished job 0 without changing anything. -/
def srtnGapStuck : Scheduler :=
  { job_list := [⟨0, 0, 1, 0, 0, 1, false⟩, ⟨2, 1, 1, 1, -1, -1, true⟩]
    completed_jobs := [⟨0, 0, 1, 0, 0, 1, false⟩]
    num_jobs := 2
    num_jobs_completed := 1
    quantum := 1
    total_time := 1
    print_str := "[P0]" }

/-- The state after the first executed SRTN tick on `exampleInit`: job 0 has
run one tick (remaining 4) and the engine has selected job 1 (remaining 3),
which arrived at tick 1 — preemption at tick 1. -/
def srtnExampleTick1 : Scheduler :=
  { job_list := [⟨0, 4, 5, 0, 0, -1, false⟩, mkJob 3 1 1, mkJob 8 2 2]
    completed_jobs := []
    num_jobs := 3
    num_jobs_completed := 0
    quantum := 1
    total_time := 1
    print_str := "[P0]" }

/-- Round-robin input with quantum 0 and a single 1-tick job. -/
def rrQ0Init : Scheduler := submit_jobs (initScheduler 0) [mkJob 1 0 0]

/-- The state `scheduler_rr` reaches on `rrQ0Init` after one loop iteration:
with quantum 0 the slice branch adds 0 to the clock and subtracts 0 from the
remaining burst, so this state repeats forever. -/
def rrQ0Stuck : Scheduler :=
  { job_list := [⟨0, 1, 1, 0, 0, -1, false⟩]
    completed_jobs := []
    num_jobs := 1
    num_jobs_completed := 0
    quantum := 0
    total_time := 0
    print_str := "" }

/-- Same single 1-tick job under quantum 1. -/
def rrQ1Init : Scheduler := submit_jobs (initScheduler 1) [mkJob 1 0 0]

/-- A fresh zero-burst job under round-robin: arrived, `remaining_burst_time = 0`,
but never dispatched. -/
def rrZeroBurstInit : Scheduler := submit_jobs (initScheduler 1) [mkJob 0 0 0]

/-- What `rrStep` turns `rrZeroBurstInit` into: the visit stamps
`first_time_running` and clears `is_first_run`. -/
def rrZeroBurstAfter : Scheduler :=
  { rrZeroBurstInit with job_list := [⟨0, 0, 0, 0, 0, -1, false⟩] }

/-- An already-completed job, as `rrStep` leaves it in the rotation. -/
def rrDoneJob : Job := ⟨0, 0, 1, 0, 0, 1, false⟩

/-- A reachable mid-run RR state whose slot 0 holds a completed job. -/
def rrFrameState : Scheduler :=
  { job_list := [rrDoneJob, mkJob 2 0 1]
    completed_jobs := [rrDoneJob]
    num_jobs := 2
    num_jobs_completed := 1
    quantum := 1
    total_time := 1
    print_str := "[P0]" }

/-- FIFO input with a single 5-tick job (quantum 1). -/
def fifoBurst5Init : Scheduler := submit_jobs (initScheduler 1) [mkJob 5 0 0]


/-- The job of `fifoBurst5Init` after its one-shot dispatch. -/
def fifoBurst5Done : Job := ⟨0, 0, 5, 0, 0, 5, true⟩

/-- The state after `fifoStep` dispatches the 5-tick job: the clock jumps from 0 to 5. -/
def fifoBurst5After : Scheduler :=
  { job_list := [fifoBurst5Done]
    completed_jobs := [fifoBurst5Done]
    num_jobs := 1
    num_jobs_completed := 1
    quantum := 1
    total_time := 5
    print_str := "[P0][P0][P0][P0][P0]" }


/-- `Scheduler.stat`: sort the completed jobs by `job_number`, report per-job
`(job_number, turnaround, wait)` rows and the two arithmetic means.
A `ZeroDivisionError` (empty `completed_jobs`) is modelled as `none`. -/
def stat (s : Scheduler) : Option (List (Nat × Int × Int) × Rat × Rat) :=
  let sorted := sortStable (fun j => (j.job_number : Int)) s.completed_jobs
  let rows := sorted.map (fun j => (j.job_number, j.compute_turnaround_time, j.compute_wait_time))
  if sorted.length = 0 then none
  else
    some (rows,
      ((sorted.map Job.compute_turnaround_time).sum : Rat) / (sorted.length : Rat),
      ((sorted.map Job.compute_wait_time).sum : Rat) / (sorted.length : Rat))

/-! ## Helper lemmas -/

/-- Writing back the element already stored at an index leaves the list unchanged. -/
theorem set_self_of_getElem? {α : Type} :
    ∀ (l : List α) (i : Nat) (x : α), l[i]? = some x → l.set i x = l
  | [], _, _, h => by simp at h
  | a :: as, 0, x, h => by
    simp only [List.getElem?_cons_zero, Option.some.injEq] at h
    simp [h]
  | a :: as, n + 1, x, h => by
    simp only [List.getElem?_cons_succ] at h
    simp [set_self_of_getElem? as n x h]

/-- If `argminFilteredAux` finds nothing, no element satisfies `p`. -/
theorem argminFilteredAux_none (p : Job → Bool) (key : Job → Int) :
    ∀ (l : List Job) (base : Nat),
      argminFilteredAux p key l base = none → ∀ y ∈ l, ¬ p y = true
  | [], _, _ => by simp
  | j :: rest, base, h => by
    cases hr : argminFilteredAux p key rest (base + 1) with
    | none =>
      by_cases hp : p j
      · simp [argminFilteredAux, hr, hp] at h
      · intro y hy
        rcases List.mem_cons.mp hy with hy | hy
        · subst hy; exact hp
        · exact argminFilteredAux_none p key rest (base + 1) hr y hy
    | some br =>
      obtain ⟨ri, rv⟩ := br
      by_cases hp : p j
      · simp only [argminFilteredAux, hr, if_pos hp] at h
        split at h <;> simp at h
      · simp only [argminFilteredAux, hr, if_neg hp] at h
        simp at h

/-- `argminFilteredAux` returns an in-range index (relative to `base`) of an
element satisfying `p` whose key is minimal among all satisfying elements. -/
theorem argminFilteredAux_spec (p : Job → Bool) (key : Job → Int) :
    ∀ (l : List Job) (base bi : Nat) (bv : Int),
      argminFilteredAux p key l base = some (bi, bv) →
      base ≤ bi ∧ bi - base < l.length ∧
      (∃ x, l[bi - base]? = some x ∧ p x = true ∧ key x = bv) ∧
      (∀ y ∈ l, p y = true → bv ≤ key y)
  | [], base, bi, bv => by simp [argminFilteredAux]
  | j :: rest, base, bi, bv => by
    intro h
    cases hr : argminFilteredAux p key rest (base + 1) with
    | none =>
      by_cases hp : p j
      · simp only [argminFilteredAux, hr, if_pos hp, Option.some.injEq, Prod.mk.injEq] at h
        obtain ⟨h1, h2⟩ := h
        subst h1; subst h2
        refine ⟨le_refl _, by simp, ⟨j, by simp, hp, rfl⟩, ?_⟩
        intro y hy hpy
        rcases List.mem_cons.mp hy with hy | hy
        · subst hy; exact le_refl _
        · exact absurd hpy (argminFilteredAux_none p key rest (base + 1) hr y hy)
      · simp only [argminFilteredAux, hr, if_neg hp] at h
        simp at h
    | some br =>
      obtain ⟨ri, rv⟩ := br
      have ihr := argminFilteredAux_spec p key rest (base + 1) ri rv hr
      obtain ⟨hb, hlen, ⟨x, hx, hpx, hkx⟩, hmin⟩ := ihr
      by_cases hp : p j
      · by_cases hle : key j ≤ rv
        · simp only [argminFilteredAux, hr, if_pos hp, if_pos hle,
            Option.some.injEq, Prod.mk.injEq] at h
          rcases h with ⟨rfl, rfl⟩
          refine ⟨le_refl _, by simp, ⟨j, by simp, hp, rfl⟩, ?_⟩
          intro y hy hpy
          rcases List.mem_cons.mp hy with hy | hy
          · subst hy; exact le_refl _
          · exact le_trans hle (hmin y hy hpy)
        · simp only [argminFilteredAux, hr, if_pos hp, if_neg hle,
            Option.some.injEq, Prod.mk.injEq] at h
          rcases h with ⟨rfl, rfl⟩
          have hidx : ri - base = (ri - (base + 1)) + 1 := by omega
          refine ⟨by omega, by simp; omega, ⟨x, ?_, hpx, hkx⟩, ?_⟩
          · rw [hidx]; simpa using hx
          · intro y hy hpy
            rcases List.mem_cons.mp hy with hy | hy
            · subst hy; omega
            · exact hmin y hy hpy
      · simp only [argminFilteredAux, hr, if_neg hp, Option.some.injEq,
          Prod.mk.injEq] at h
        rcases h with ⟨rfl, rfl⟩
        have hidx : ri - base = (ri - (base + 1)) + 1 := by omega
        refine ⟨by omega, by simp; omega, ⟨x, ?_, hpx, hkx⟩, ?_⟩
        · rw [hidx]; simpa using hx
        · intro y hy hpy
          rcases List.mem_cons.mp hy with hy | hy
          · subst hy; exact absurd hpy hp
          · exact hmin y hy hpy

/-- Index form: `argminFiltered` returns the index of a `p`-satisfying element
whose key is minimal among all `p`-satisfying elements of the list. -/
theorem argminFiltered_spec (p : Job → Bool) (key : Job → Int) (l : List Job) (k : Nat)
    (h : argminFiltered p key l = some k) :
    ∃ x, l[k]? = some x ∧ p x = true ∧ ∀ y ∈ l, p y = true → key x ≤ key y := by
  unfold argminFiltered at h
  cases hr : argminFilteredAux p key l 0 with
  | none => rw [hr] at h; simp at h
  | some br =>
    obtain ⟨bi, bv⟩ := br
    rw [hr] at h
    simp only [Option.map_some', Option.some.injEq] at h
    subst h
    obtain ⟨-, -, ⟨x, hx, hpx, hkx⟩, hmin⟩ := argminFilteredAux_spec p key l 0 bi bv hr
    exact ⟨x, by simpa using hx, hpx, fun y hy hpy => hkx ▸ hmin y hy hpy⟩

/-- If `argminFiltered` returns `none`, no element satisfies `p`. -/
theorem argminFiltered_none (p : Job → Bool) (key : Job → Int) (l : List Job)
    (h : argminFiltered p key l = none) : ∀ y ∈ l, ¬ p y = true := by
  unfold argminFiltered at h
  cases hr : argminFilteredAux p key l 0 with
  | none => exact argminFilteredAux_none p key l 0 hr
  | some br => rw [hr] at h; simp at h

/-- An element of `base.set i a` other than `a` is also in `base.set i b`. -/
theorem mem_set_of_mem_set_ne (base : List Job) (i : Nat) (a b y : Job)
    (hy : y ∈ base.set i a) (hne : y ≠ a) : y ∈ base.set i b := by
  obtain ⟨k, hyk⟩ := List.mem_iff_getElem?.mp hy
  by_cases hki : i = k
  · subst hki
    have hleni : i < base.length := by
      obtain ⟨hl, -⟩ := List.getElem?_eq_some.mp hyk
      simpa using hl
    rw [List.getElem?_set_self hleni] at hyk
    exact absurd (Option.some.inj hyk).symm hne
  · refine List.mem_iff_getElem?.mpr ⟨k, ?_⟩
    rw [List.getElem?_set_ne hki] at hyk ⊢
    exact hyk

/-- When the next scheduled index comes from `argminFiltered` over the very
list the engine keeps, it points at an arrived unfinished job of minimal
remaining burst, whenever any arrived unfinished job exists. -/
theorem next_index_min_same (l : List Job) (t : Int) (i i' : Nat)
    (hi' : i' = (argminFiltered
      (fun y => decide (y.arrival_time ≤ t) && decide (0 < y.remaining_burst_time))
      Job.remaining_burst_time l).getD i) :
    ∀ y ∈ l, y.arrival_time ≤ t → 0 < y.remaining_burst_time →
      ∃ x, l[i']? = some x ∧ x.arrival_time ≤ t ∧ 0 < x.remaining_burst_time ∧
        ∀ z ∈ l, z.arrival_time ≤ t → 0 < z.remaining_burst_time →
          x.remaining_burst_time ≤ z.remaining_burst_time := by
  intro y hy hyarr hyrem
  cases hc : argminFiltered
      (fun y => decide (y.arrival_time ≤ t) && decide (0 < y.remaining_burst_time))
      Job.remaining_burst_time l with
  | none =>
    have hnone := argminFiltered_none _ _ l hc y hy
    simp [hyarr, hyrem] at hnone
  | some k =>
    obtain ⟨x, hx, hpx, hmin⟩ := argminFiltered_spec _ _ l k hc
    simp only [Bool.and_eq_true, decide_eq_true_eq] at hpx
    rw [hi', hc]
    refine ⟨x, by simpa using hx, hpx.1, hpx.2, ?_⟩
    intro z hz hzarr hzrem
    exact hmin z hz (by simp [hzarr, hzrem])

/-- Same statement when the engine's kept list differs from the list the
argmin was computed over only at the written index, both holding a finished
job there (`remaining_burst_time = 0`): the completion branch writes
`completion_time` after `filtered_jobs` was computed. -/
theorem next_index_min_shifted (base : List Job) (t : Int) (i i' : Nat)
    (sched2 sched3 : Job)
    (hi' : i' = (argminFiltered
      (fun y => decide (y.arrival_time ≤ t) && decide (0 < y.remaining_burst_time))
      Job.remaining_burst_time (base.set i sched2)).getD i)
    (hrem23 : sched3.remaining_burst_time = sched2.remaining_burst_time)
    (hrem2 : sched2.remaining_burst_time = 0) :
    ∀ y ∈ base.set i sched3, y.arrival_time ≤ t → 0 < y.remaining_burst_time →
      ∃ x, (base.set i sched3)[i']? = some x ∧ x.arrival_time ≤ t ∧
        0 < x.remaining_burst_time ∧
        ∀ z ∈ base.set i sched3, z.arrival_time ≤ t → 0 < z.remaining_burst_time →
          x.remaining_burst_time ≤ z.remaining_burst_time := by
  intro y hy hyarr hyrem
  have hy3 : y ≠ sched3 := by
    intro he
    rw [he, hrem23, hrem2] at hyrem
    exact lt_irrefl 0 hyrem
  have hy2 : y ∈ base.set i sched2 := mem_set_of_mem_set_ne base i sched3 sched2 y hy hy3
  cases hc : argminFiltered
      (fun y => decide (y.arrival_time ≤ t) && decide (0 < y.remaining_burst_time))
      Job.remaining_burst_time (base.set i sched2) with
  | none =>
    have hnone := argminFiltered_none _ _ _ hc y hy2
    simp [hyarr, hyrem] at hnone
  | some k =>
    obtain ⟨x, hx, hpx, hmin⟩ := argminFiltered_spec _ _ _ k hc
    simp only [Bool.and_eq_true, decide_eq_true_eq] at hpx
    have hki : i ≠ k := by
      intro he
      subst he
      have hleni : i < base.length := by
        obtain ⟨hl, -⟩ := List.getElem?_eq_some.mp hx
        simpa using hl
      rw [List.getElem?_set_self hleni] at hx
      rw [← Option.some.inj hx, hrem2] at hpx
      exact lt_irrefl 0 hpx.2
    rw [hi', hc]
    refine ⟨x, ?_, hpx.1, hpx.2, ?_⟩
    · show (base.set i sched3)[k]? = some x
      rw [List.getElem?_set_ne hki]
      rw [List.getElem?_set_ne hki] at hx
      exact hx
    · intro z hz hzarr hzrem
      have hz3 : z ≠ sched3 := by
        intro he
        rw [he, hrem23, hrem2] at hzrem
        exact lt_irrefl 0 hzrem
      exact hmin z (mem_set_of_mem_set_ne base i sched3 sched2 z hz hz3) (by simp [hzarr, hzrem])

/-- After every executed SRTN tick the engine hands the processor to an
arrived unfinished job of minimal remaining burst time (when one exists). -/
theorem srtn_dispatch_min (s : Scheduler) (i : Nat) (j : Job) (s' : Scheduler) (i' : Nat)
    (hj : s.job_list[i]? = some j)
    (harr : j.arrival_time ≤ s.total_time)
    (hpos : 0 < j.remaining_burst_time)
    (hstep : srtnStep s i = some (s', i')) :
    ∀ y ∈ s'.job_list, y.arrival_time ≤ s'.total_time → 0 < y.remaining_burst_time →
      ∃ x, s'.job_list[i']? = some x ∧ x.arrival_time ≤ s'.total_time ∧
        0 < x.remaining_burst_time ∧
        ∀ z ∈ s'.job_list, z.arrival_time ≤ s'.total_time → 0 < z.remaining_burst_time →
          x.remaining_burst_time ≤ z.remaining_burst_time := by
  have hnl : ¬ s.total_time < j.arrival_time := not_lt.mpr harr
  unfold srtnStep at hstep
  rw [hj] at hstep
  by_cases hf : j.is_first_run
  · simp only [hnl, if_false, hf, if_true, List.set_set] at hstep
    rw [if_pos hpos] at hstep
    by_cases hz : j.remaining_burst_time - 1 = 0
    · rw [if_pos hz] at hstep
      simp only [Option.some.injEq, Prod.mk.injEq] at hstep
      obtain ⟨hs', hi'⟩ := hstep
      subst hs'
      exact next_index_min_shifted s.job_list (s.total_time + 1) i i' _ _ hi'.symm rfl hz
    · rw [if_neg hz] at hstep
      simp only [Option.some.injEq, Prod.mk.injEq] at hstep
      obtain ⟨hs', hi'⟩ := hstep
      subst hs'
      exact next_index_min_same _ (s.total_time + 1) i i' hi'.symm
  · rw [Bool.not_eq_true] at hf
    simp only [hnl, if_false, hf, Bool.false_eq_true, List.set_set] at hstep
    rw [if_pos hpos] at hstep
    by_cases hz : j.remaining_burst_time - 1 = 0
    · rw [if_pos hz] at hstep
      simp only [Option.some.injEq, Prod.mk.injEq] at hstep
      obtain ⟨hs', hi'⟩ := hstep
      subst hs'
      exact next_index_min_shifted s.job_list (s.total_time + 1) i i' _ _ hi'.symm rfl hz
    · rw [if_neg hz] at hstep
      simp only [Option.some.injEq, Prod.mk.injEq] at hstep
      obtain ⟨hs', hi'⟩ := hstep
      subst hs'
      exact next_index_min_same _ (s.total_time + 1) i i' hi'.symm

/-! ## C9: empty job list -/

/-- C9: for the empty job list, every policy's engine returns immediately with
zero elapsed ticks, an empty completed-jobs collection, an empty trace, and no
error, for any quantum and any fuel. -/
theorem C9_empty_job_list (q : Int) (fuel : Nat) :
    scheduler_fifo fuel (submit_jobs (initScheduler q) []) = some (initScheduler q) ∧
    scheduler_rr fuel (submit_jobs (initScheduler q) []) = some (initScheduler q) ∧
    scheduler_srtn fuel (submit_jobs (initScheduler q) []) = some (initScheduler q) ∧
    (initScheduler q).total_time = 0 ∧
    (initScheduler q).completed_jobs = [] ∧
    (initScheduler q).print_str = "" :=
  ⟨rfl, rfl, rfl, rfl, rfl, rfl⟩

/-! ## C6: metrics reporter on the empty collection -/

/-- C6 counterexample: with an empty completed-jobs collection, `stat` reaches
the division by zero (modelled as `none`); it does not produce a "no data"
report as the claim states. -/
theorem C6_empty_stat_counterexample : stat (initScheduler 1) = none := rfl

/-! ## C10: round-robin visit of a completed job -/

/-- C10 counterexample: the job at the current index has arrived and has
`remaining_burst_time = 0`, yet the visit does change job fields: a fresh
zero-burst job gets `first_time_running` stamped and `is_first_run` cleared, so
"every field of every job unchanged" fails. -/
theorem C10_zero_burst_counterexample :
    rrZeroBurstInit.job_list[0]?.map Job.arrival_time = some 0 ∧
    rrZeroBurstInit.total_time = 0 ∧
    rrZeroBurstInit.job_list[0]?.map Job.remaining_burst_time = some 0 ∧
    rrStep rrZeroBurstInit 0 = some (rrZeroBurstAfter, 0) ∧
    rrZeroBurstAfter ≠ rrZeroBurstInit := by
  refine ⟨rfl, rfl, rfl, by decide, by decide⟩

/-- C10 (amended): under round-robin, when the job at the current cyclic index
has arrived, has `remaining_burst_time = 0`, and has been dispatched before
(`is_first_run = false`), the visit changes nothing at all — clock, trace,
completed jobs and every job field are untouched — and only the cyclic index
advances by one, wrapping from the last slot to slot 0. -/
theorem C10_completed_job_frame (s : Scheduler) (i : Nat) (j : Job)
    (hj : s.job_list[i]? = some j)
    (harr : j.arrival_time ≤ s.total_time)
    (hrem : j.remaining_burst_time = 0)
    (hflag : j.is_first_run = false) :
    rrStep s i = some (s, if i = s.num_jobs - 1 then 0 else i + 1) := by
  have hset := set_self_of_getElem? s.job_list i j hj
  have hnl : ¬ s.total_time < j.arrival_time := not_lt.mpr harr
  unfold rrStep
  rw [hj]
  simp [hnl, hflag, hrem, hset]

/-- Witness for `C10_completed_job_frame` at a concrete mid-run state. -/
theorem C10_completed_job_frame_witness :
    rrFrameState.job_list[0]? = some rrDoneJob ∧
    rrDoneJob.arrival_time ≤ rrFrameState.total_time ∧
    rrDoneJob.remaining_burst_time = 0 ∧
    rrDoneJob.is_first_run = false ∧
    rrStep rrFrameState 0 = some (rrFrameState, 1) :=
  ⟨rfl, by decide, rfl, rfl,
    C10_completed_job_frame rrFrameState 0 rrDoneJob rfl (by decide) rfl rfl⟩

/-! ## C1: termination of the main loop -/

/-- On `srtnGapStuck` the SRTN loop body returns the very same state and index. -/
theorem srtnGapStuck_fixpoint : srtnStep srtnGapStuck 0 = some (srtnGapStuck, 0) := by
  decide

/-- The loop condition still holds at `srtnGapStuck` (1 of 2 jobs completed). -/
theorem srtnGapStuck_not_done : srtnGapStuck.num_jobs ≠ srtnGapStuck.num_jobs_completed := by
  decide

/-- From the stuck state the SRTN loop never finishes, whatever the fuel. -/
theorem srtnGapStuck_loop (fuel : Nat) :
    runLoop srtnStep fuel srtnGapStuck 0 = none := by
  induction fuel with
  | zero => rfl
  | succ n ih =>
    simp only [runLoop]
    rw [if_neg (by decide), srtnGapStuck_fixpoint]
    exact ih

set_option maxHeartbeats 2000000 in
/-- The first SRTN loop iteration on `srtnGapInit` runs job 0 to completion
and lands in `srtnGapStuck`. -/
theorem srtnGap_step1 : srtnStep srtnGapInit 0 = some (srtnGapStuck, 0) := by
  decide

/-- C1 (refuting theorem for the code bug): on the validated job list
`[(burst=1,arr=0), (burst=1,arr=2)]` the SRTN engine never terminates: after
job 0 completes at tick 1, the kept current job has remaining burst 0 and has
arrived, so no branch of the loop body makes progress.  The claim's
termination contract fails. -/
theorem C1_srtn_divergence (fuel : Nat) :
    scheduler_srtn fuel srtnGapInit = none := by
  cases fuel with
  | zero => rfl
  | succ n =>
    have h1 : scheduler_srtn (n + 1) srtnGapInit = runLoop srtnStep (n + 1) srtnGapInit 0 := rfl
    rw [h1]
    simp only [runLoop]
    rw [if_neg (by decide), srtnGap_step1]
    exact srtnGapStuck_loop n

/-! ## C3: quantum is not clamped -/

/-- On `rrQ0Stuck` the RR loop body with quantum 0 returns the very same state
and index: the slice branch adds quantum 0 to the clock and removes quantum 0
from the remaining burst. -/
theorem rrQ0Stuck_fixpoint : rrStep rrQ0Stuck 0 = some (rrQ0Stuck, 0) := by
  decide

set_option maxHeartbeats 2000000 in
/-- The first RR loop iteration on `rrQ0Init` stamps the first-run fields and
lands in `rrQ0Stuck`. -/
theorem rrQ0_step1 : rrStep rrQ0Init 0 = some (rrQ0Stuck, 0) := by
  decide

/-- From the quantum-0 stuck state the RR loop never finishes. -/
theorem rrQ0Stuck_loop (fuel : Nat) :
    runLoop rrStep fuel rrQ0Stuck 0 = none := by
  induction fuel with
  | zero => rfl
  | succ n ih =>
    simp only [runLoop]
    rw [if_neg (by decide), rrQ0Stuck_fixpoint]
    exact ih

/-- The quantum-0 round-robin run on a single 1-tick job never finishes. -/
theorem rrQ0_divergence (fuel : Nat) : scheduler_rr fuel rrQ0Init = none := by
  cases fuel with
  | zero => rfl
  | succ n =>
    have h1 : scheduler_rr (n + 1) rrQ0Init = runLoop rrStep (n + 1) rrQ0Init 0 := rfl
    rw [h1]
    simp only [runLoop]
    rw [if_neg (by decide), rrQ0_step1]
    exact rrQ0Stuck_loop n

/-- C3 counterexample: with quantum 0 the round-robin engine does not behave as
with quantum 1 on the job list `[(burst=1,arr=0)]`: at equal fuel the
quantum-1 run completes (1 elapsed tick, 1 completed job) while the quantum-0
run has not finished — the supplied quantum is used as-is, never clamped. -/
theorem C3_quantum_counterexample :
    scheduler_rr 50 rrQ0Init = none ∧
    scheduler_rr 50 rrQ1Init ≠ none ∧
    (scheduler_rr 50 rrQ1Init).map Scheduler.total_time = some 1 ∧
    (scheduler_rr 50 rrQ1Init).map Scheduler.num_jobs_completed = some 1 := by
  refine ⟨rrQ0_divergence 50, by decide, by decide, by decide⟩

/-- C3 (amended): the quantum is used exactly as supplied — `Scheduler.__init__`
and `scheduler_rr` never clamp it to 1.  With quantum 0 and a positive-burst
job the engine makes no progress and never terminates, for any fuel, while
with quantum 1 the same job list finishes after 1 tick with 1 completed job. -/
theorem C3_quantum_not_clamped (fuel : Nat) :
    (initScheduler 0).quantum = 0 ∧
    scheduler_rr fuel rrQ0Init = none ∧
    scheduler_rr 3 rrQ1Init ≠ none ∧
    (scheduler_rr 3 rrQ1Init).map Scheduler.total_time = some 1 ∧
    (scheduler_rr 3 rrQ1Init).map Scheduler.num_jobs_completed = some 1 := by
  exact ⟨rfl, rrQ0_divergence fuel, by decide, by decide, by decide⟩

/-! ## C2: SRTN preemption -/

set_option maxHeartbeats 4000000 in
/-- C2 counterexample: on the example job set, job 1 preempts job 0 at tick 1,
not tick 2 — the trace of the first two ticks is `[P0][P1]`, whereas the claim
("job0 runs until the clock reaches 2") requires `[P0][P0]`. -/
theorem C2_preemption_tick_counterexample :
    (scheduler_srtn 20 exampleInit).map (fun s => s.print_str.take 8) = some "[P0][P1]" ∧
    ("[P0][P1]" : String) ≠ "[P0][P0]" := by
  exact ⟨by decide, by decide⟩

set_option maxHeartbeats 4000000 in
/-- C2 (amended): under SRTN on `[(burst=5,arr=0), (burst=3,arr=1), (burst=8,arr=2)]`,
job 1 preempts job 0 at tick 1, the first tick boundary at which it has
arrived (its remaining 3 < job 0's remaining 4): job 0 runs only tick 0, job 1
occupies the processor for ticks 1-3 and completes at tick 4; afterwards
job 0 completes at tick 8 and job 2 at tick 16, each whole tick being assigned
to exactly one job (never mid-tick).  In general, after every executed tick
the engine hands the processor to an arrived unfinished job with minimal
remaining burst time, whenever one exists. -/
theorem C2_preemption_amended :
    ((scheduler_srtn 20 exampleInit).map
      (fun s => (s.print_str, s.total_time,
        s.completed_jobs.map (fun j => (j.job_number, j.completion_time)))) =
      some ("[P0][P1][P1][P1][P0][P0][P0][P0][P2][P2][P2][P2][P2][P2][P2][P2]", 16,
        [(1, 4), (0, 8), (2, 16)])) ∧
    (srtnStep exampleInit 0 = some (srtnExampleTick1, 1) ∧
      srtnExampleTick1.job_list[1]?.map Job.job_number = some 1) ∧
    (∀ (s : Scheduler) (i : Nat) (j : Job) (s' : Scheduler) (i' : Nat),
      s.job_list[i]? = some j →
      j.arrival_time ≤ s.total_time →
      0 < j.remaining_burst_time →
      srtnStep s i = some (s', i') →
      ∀ y ∈ s'.job_list, y.arrival_time ≤ s'.total_time → 0 < y.remaining_burst_time →
        ∃ x, s'.job_list[i']? = some x ∧ x.arrival_time ≤ s'.total_time ∧
          0 < x.remaining_burst_time ∧
          ∀ z ∈ s'.job_list, z.arrival_time ≤ s'.total_time → 0 < z.remaining_burst_time →
            x.remaining_burst_time ≤ z.remaining_burst_time) := by
  refine ⟨by decide, ⟨by decide, by decide⟩, ?_⟩
  intro s i j s' i' hj harr hpos hstep
  exact srtn_dispatch_min s i j s' i' hj harr hpos hstep

set_option maxHeartbeats 4000000 in
/-- Witness for `C2_preemption_amended`: at the first tick of the example run
the general conjunct's hypotheses hold concretely, and the selected job
(index 1, job 1) is the arrived unfinished job of minimal remaining burst. -/
theorem C2_preemption_amended_witness :
    exampleInit.job_list[0]? = some (mkJob 5 0 0) ∧
    (mkJob 5 0 0).arrival_time ≤ exampleInit.total_time ∧
    0 < (mkJob 5 0 0).remaining_burst_time ∧
    srtnStep exampleInit 0 = some (srtnExampleTick1, 1) ∧
    mkJob 3 1 1 ∈ srtnExampleTick1.job_list ∧
    (mkJob 3 1 1).arrival_time ≤ srtnExampleTick1.total_time ∧
    0 < (mkJob 3 1 1).remaining_burst_time ∧
    (∃ x, srtnExampleTick1.job_list[1]? = some x ∧
      x.arrival_time ≤ srtnExampleTick1.total_time ∧
      0 < x.remaining_burst_time ∧
      ∀ z ∈ srtnExampleTick1.job_list,
        z.arrival_time ≤ srtnExampleTick1.total_time → 0 < z.remaining_burst_time →
          x.remaining_burst_time ≤ z.remaining_burst_time) :=
  ⟨by decide, by decide, by decide, by decide, by decide, by decide, by decide,
    C2_preemption_amended.2.2 exampleInit 0 (mkJob 5 0 0) srtnExampleTick1 1
      (by decide) (by decide) (by decide) (by decide)
      (mkJob 3 1 1) (by decide) (by decide) (by decide)⟩

/-! ## C5: the job loader; C6: the metrics reporter on non-empty data -/

/-- `insertStable` is `cons` up to permutation. -/
theorem insertStable_perm (key : Job → Int) (j : Job) :
    ∀ l : List Job, (insertStable key j l).Perm (j :: l)
  | [] => List.Perm.refl _
  | x :: xs => by
    unfold insertStable
    by_cases h : key x ≤ key j
    · rw [if_pos h]
      exact ((insertStable_perm key j xs).cons x).trans (List.Perm.swap j x xs)
    · rw [if_neg h]

/-- Membership in an `insertStable` result. -/
theorem mem_insertStable (key : Job → Int) (j y : Job) (l : List Job)
    (hy : y ∈ insertStable key j l) : y = j ∨ y ∈ l := by
  have := (insertStable_perm key j l).mem_iff.mp hy
  exact List.mem_cons.mp this

theorem foldl_insertStable_perm (key : Job → Int) :
    ∀ (l acc : List Job),
      (List.foldl (fun acc j => insertStable key j acc) acc l).Perm (acc ++ l)
  | [], acc => by simp
  | j :: rest, acc => by
    simp only [List.foldl_cons]
    refine (foldl_insertStable_perm key rest (insertStable key j acc)).trans ?_
    refine ((insertStable_perm key j acc).append_right rest).trans ?_
    exact (List.perm_middle).symm

/-- The stable sort is a permutation of its input. -/
theorem sortStable_perm (key : Job → Int) (l : List Job) :
    (sortStable key l).Perm l := by
  simpa using foldl_insertStable_perm key l []

/-- `insertStable` preserves sortedness by the key. -/
theorem insertStable_pairwise_le (key : Job → Int) (j : Job) :
    ∀ l : List Job, l.Pairwise (fun a b => key a ≤ key b) →
      (insertStable key j l).Pairwise (fun a b => key a ≤ key b)
  | [], _ => by simp [insertStable]
  | x :: xs, h => by
    obtain ⟨hx, hxs⟩ := List.pairwise_cons.mp h
    unfold insertStable
    by_cases hle : key x ≤ key j
    · rw [if_pos hle]
      refine List.pairwise_cons.mpr ⟨?_, insertStable_pairwise_le key j xs hxs⟩
      intro y hy
      rcases mem_insertStable key j y xs hy with rfl | hy'
      · exact hle
      · exact hx y hy'
    · rw [if_neg hle]
      push_neg at hle
      refine List.pairwise_cons.mpr ⟨?_, h⟩
      intro y hy
      rcases List.mem_cons.mp hy with rfl | hy'
      · exact le_of_lt hle
      · exact le_trans (le_of_lt hle) (hx y hy')

/-- The stable sort sorts by the key. -/
theorem sortStable_pairwise_le (key : Job → Int) (l : List Job) :
    (sortStable key l).Pairwise (fun a b => key a ≤ key b) := by
  suffices h : ∀ (l acc : List Job), acc.Pairwise (fun a b => key a ≤ key b) →
      (List.foldl (fun acc j => insertStable key j acc) acc l).Pairwise
        (fun a b => key a ≤ key b) by
    exact h l [] (by simp)
  intro l
  induction l with
  | nil => intro acc h; exact h
  | cons j rest ih =>
    intro acc h
    exact ih (insertStable key j acc) (insertStable_pairwise_le key j acc h)

theorem StableBefore.key_le {key : Job → Int} {a b : Job}
    (h : StableBefore key a b) : key a ≤ key b := by
  rcases h with h | ⟨h, -⟩
  · exact le_of_lt h
  · exact le_of_eq h

/-- Inserting an element whose `job_number` is larger than every element
already present preserves the stable ordering. -/
theorem insertStable_pairwise_stable (key : Job → Int) (j : Job) :
    ∀ l : List Job, l.Pairwise (StableBefore key) →
      (∀ x ∈ l, x.job_number < j.job_number) →
      (insertStable key j l).Pairwise (StableBefore key)
  | [], _, _ => by simp [insertStable]
  | x :: xs, h, hnum => by
    obtain ⟨hx, hxs⟩ := List.pairwise_cons.mp h
    unfold insertStable
    by_cases hle : key x ≤ key j
    · rw [if_pos hle]
      refine List.pairwise_cons.mpr
        ⟨?_, insertStable_pairwise_stable key j xs hxs
          (fun y hy => hnum y (List.mem_cons_of_mem x hy))⟩
      intro y hy
      rcases mem_insertStable key j y xs hy with rfl | hy'
      · rcases lt_or_eq_of_le hle with hlt | heq
        · exact Or.inl hlt
        · exact Or.inr ⟨heq, hnum x (List.mem_cons_self x xs)⟩
      · exact hx y hy'
    · rw [if_neg hle]
      push_neg at hle
      refine List.pairwise_cons.mpr ⟨?_, h⟩
      intro y hy
      rcases List.mem_cons.mp hy with rfl | hy'
      · exact Or.inl hle
      · exact Or.inl (lt_of_lt_of_le hle (hx y hy').key_le)

/-- The stable sort of a list with strictly increasing `job_number`s is
ordered by key, with ties in `job_number` order. -/
theorem sortStable_pairwise_stable (key : Job → Int) (l : List Job)
    (hl : l.Pairwise (fun a b => a.job_number < b.job_number)) :
    (sortStable key l).Pairwise (StableBefore key) := by
  suffices h : ∀ (l acc : List Job), acc.Pairwise (StableBefore key) →
      (∀ x ∈ acc, ∀ y ∈ l, x.job_number < y.job_number) →
      l.Pairwise (fun a b => a.job_number < b.job_number) →
      (List.foldl (fun acc j => insertStable key j acc) acc l).Pairwise (StableBefore key) by
    exact h l [] (by simp) (by simp) hl
  intro l
  induction l with
  | nil => intro acc h _ _; exact h
  | cons j rest ih =>
    intro acc h hcross hl
    obtain ⟨hj, hrest⟩ := List.pairwise_cons.mp hl
    simp only [List.foldl_cons]
    refine ih (insertStable key j acc) ?_ ?_ hrest
    · exact insertStable_pairwise_stable key j acc h
        (fun x hx => hcross x hx j (List.mem_cons_self j rest))
    · intro x hx y hy
      rcases mem_insertStable key j x acc hx with rfl | hx'
      · exact hj y hy
      · exact hcross x hx' y (List.mem_cons_of_mem j hy)

/-- Indices in `enumFrom` are strictly increasing. -/
theorem enumFrom_pairwise_fst_lt {α : Type} :
    ∀ (l : List α) (n : Nat),
      (List.enumFrom n l).Pairwise (fun p q => p.1 < q.1)
  | [], _ => by simp
  | x :: xs, n => by
    simp only [List.enumFrom]
    refine List.pairwise_cons.mpr ⟨?_, enumFrom_pairwise_fst_lt xs (n + 1)⟩
    intro q hq
    obtain ⟨q1, q2⟩ := q
    have := (List.mem_enumFrom hq).1
    simpa using lt_of_lt_of_le (Nat.lt_succ_self n) this

/-- The fresh jobs built by the loader carry strictly increasing
`job_number`s (their 0-based raw line positions). -/
theorem parseJobs_pairwise_number (lines : List (Int × Int)) :
    (parseJobs lines).Pairwise (fun a b => a.job_number < b.job_number) := by
  unfold parseJobs
  rw [List.pairwise_map]
  have h := enumFrom_pairwise_fst_lt lines 0
  exact h.imp (fun hpq => hpq)

/-- The fresh job at raw position `i` carries `job_number = i`. -/
theorem parseJobs_job_number (lines : List (Int × Int)) (i : Nat) (hi : i < lines.length) :
    ((parseJobs lines).getD i default).job_number = i := by
  unfold parseJobs
  rw [List.getD_eq_getElem?_getD, List.getElem?_map, List.getElem?_enum,
    List.getElem?_eq_getElem hi]
  rfl

/-- C5 counterexample: for raw input lines `[(run=1, arr=5), (run=2, arr=0)]`
the loader returns the jobs sorted by arrival but their `jobId`s are `[1, 0]`
— the raw 0-based line positions — not `[0, 1]` as the claim ("jobId equals
its position in the arrival-sorted order") requires. -/
theorem C5_jobId_counterexample :
    (read_jobs [((1 : Int), (5 : Int)), ((2 : Int), (0 : Int))]).map Job.job_number = [1, 0] ∧
    ([1, 0] : List Nat) ≠ [0, 1] := ⟨by decide, by decide⟩

/-- C5 (amended): for every parsed input, the loader returns the records
ordered by arrival time ascending with ties broken by original line position,
and every record's `jobId` equals its 0-based position in the RAW input
(the line order before sorting), because `job_number` is assigned while
enumerating the file lines and only then is the list sorted (stably). -/
theorem C5_loader_order (lines : List (Int × Int)) :
    (read_jobs lines).Pairwise (fun a b => a.arrival_time ≤ b.arrival_time) ∧
    (read_jobs lines).Pairwise (fun a b =>
      a.arrival_time < b.arrival_time ∨
        (a.arrival_time = b.arrival_time ∧ a.job_number < b.job_number)) ∧
    (read_jobs lines).Perm (parseJobs lines) ∧
    ∀ i, i < lines.length → ((parseJobs lines).getD i default).job_number = i := by
  refine ⟨?_, ?_, sortStable_perm _ _, fun i hi => parseJobs_job_number lines i hi⟩
  · exact sortStable_pairwise_le Job.arrival_time (parseJobs lines)
  · have h := sortStable_pairwise_stable Job.arrival_time (parseJobs lines)
      (parseJobs_pairwise_number lines)
    exact h.imp (fun hpq => hpq)

/-- Witness for `C5_loader_order` at the two-line counterexample input. -/
theorem C5_loader_order_witness :
    ((read_jobs [((1 : Int), (5 : Int)), ((2 : Int), (0 : Int))]).Pairwise
      (fun a b => a.arrival_time ≤ b.arrival_time)) ∧
    (0 < ([((1 : Int), (5 : Int)), ((2 : Int), (0 : Int))] : List (Int × Int)).length) ∧
    ((parseJobs [((1 : Int), (5 : Int)), ((2 : Int), (0 : Int))]).getD 0 default).job_number = 0 :=
  ⟨(C5_loader_order [((1 : Int), (5 : Int)), ((2 : Int), (0 : Int))]).1, by decide,
    (C5_loader_order [((1 : Int), (5 : Int)), ((2 : Int), (0 : Int))]).2.2.2 0 (by decide)⟩

/-- C6 (amended): with an empty completed collection `stat` raises
`ZeroDivisionError` (no "no data" report; see `C6_empty_stat_counterexample`);
for a non-empty collection it reports per-job turnaround
`completionTime − arrivalTime` and wait `turnaround − totalBurstTime`,
ordered by `jobId` ascending, together with their arithmetic means
(characterised multiplicatively: `mean * count = sum`). -/
theorem C6_stat_nonempty (s : Scheduler) (h : s.completed_jobs ≠ []) :
    ∃ rows aT aW, stat s = some (rows, aT, aW) ∧
      rows.Pairwise (fun a b => a.1 ≤ b.1) ∧
      rows.Perm (s.completed_jobs.map (fun j =>
        (j.job_number, j.completion_time - j.arrival_time,
          j.completion_time - j.arrival_time - j.total_run_time))) ∧
      aT * (s.completed_jobs.length : Rat) =
        (((s.completed_jobs.map (fun j => j.completion_time - j.arrival_time)).sum : Int) : Rat) ∧
      aW * (s.completed_jobs.length : Rat) =
        (((s.completed_jobs.map (fun j =>
          j.completion_time - j.arrival_time - j.total_run_time)).sum : Int) : Rat) := by
  have hperm := sortStable_perm (fun j => (j.job_number : Int)) s.completed_jobs
  have hlen := hperm.length_eq
  have hlen0 : s.completed_jobs.length ≠ 0 := by simpa [List.length_eq_zero] using h
  have hne : ¬ (sortStable (fun j => (j.job_number : Int)) s.completed_jobs).length = 0 := by
    rw [hlen]; exact hlen0
  have hcast : ((s.completed_jobs.length : Nat) : Rat) ≠ 0 := Nat.cast_ne_zero.mpr hlen0
  refine ⟨(sortStable (fun j => (j.job_number : Int)) s.completed_jobs).map
      (fun j => (j.job_number, j.compute_turnaround_time, j.compute_wait_time)),
    (((sortStable (fun j => (j.job_number : Int)) s.completed_jobs).map
      Job.compute_turnaround_time).sum : Rat) /
      ((sortStable (fun j => (j.job_number : Int)) s.completed_jobs).length : Rat),
    (((sortStable (fun j => (j.job_number : Int)) s.completed_jobs).map
      Job.compute_wait_time).sum : Rat) /
      ((sortStable (fun j => (j.job_number : Int)) s.completed_jobs).length : Rat),
    ?_, ?_, ?_, ?_, ?_⟩
  · simp only [stat]
    rw [if_neg hne]
  · rw [List.pairwise_map]
    have hsort := sortStable_pairwise_le (fun j => (j.job_number : Int)) s.completed_jobs
    exact hsort.imp (fun hab => by exact_mod_cast hab)
  · exact hperm.map _
  · have hsum : ((sortStable (fun j => (j.job_number : Int)) s.completed_jobs).map
        Job.compute_turnaround_time).sum
        = (s.completed_jobs.map (fun j => j.completion_time - j.arrival_time)).sum :=
      (hperm.map Job.compute_turnaround_time).sum_eq
    rw [hsum, hlen]
    exact div_mul_cancel₀ _ hcast
  · have hsum : ((sortStable (fun j => (j.job_number : Int)) s.completed_jobs).map
        Job.compute_wait_time).sum
        = (s.completed_jobs.map (fun j =>
            j.completion_time - j.arrival_time - j.total_run_time)).sum :=
      (hperm.map Job.compute_wait_time).sum_eq
    rw [hsum, hlen]
    exact div_mul_cancel₀ _ hcast

/-- Witness for `C6_stat_nonempty` at a concrete one-job completed state. -/
theorem C6_stat_nonempty_witness :
    rrFrameState.completed_jobs ≠ [] ∧
    (∃ rows aT aW, stat rrFrameState = some (rows, aT, aW) ∧
      rows.Pairwise (fun a b => a.1 ≤ b.1) ∧
      rows.Perm (rrFrameState.completed_jobs.map (fun j =>
        (j.job_number, j.completion_time - j.arrival_time,
          j.completion_time - j.arrival_time - j.total_run_time))) ∧
      aT * (rrFrameState.completed_jobs.length : Rat) =
        (((rrFrameState.completed_jobs.map
          (fun j => j.completion_time - j.arrival_time)).sum : Int) : Rat) ∧
      aW * (rrFrameState.completed_jobs.length : Rat) =
        (((rrFrameState.completed_jobs.map (fun j =>
          j.completion_time - j.arrival_time - j.total_run_time)).sum : Int) : Rat)) :=
  ⟨by decide, C6_stat_nonempty rrFrameState (by decide)⟩

/-! ## C7: clock step bounds -/

theorem fifoStep_clock (s : Scheduler) (i : Nat) (s' : Scheduler) (i' : Nat)
    (h : fifoStep s i = some (s', i')) :
    s'.total_time = s.total_time + 1 ∨
    ∃ j, s.job_list[i]? = some j ∧ s'.total_time = s.total_time + j.remaining_burst_time := by
  unfold fifoStep at h
  split at h
  · exact absurd h (by simp)
  · next j hj =>
    split at h
    · simp only [Option.some.injEq, Prod.mk.injEq] at h
      obtain ⟨hs, -⟩ := h
      exact Or.inl (by rw [← hs])
    · simp only [Option.some.injEq, Prod.mk.injEq] at h
      obtain ⟨hs, -⟩ := h
      exact Or.inr ⟨j, hj, by rw [← hs]⟩

theorem rrStep_clock (s : Scheduler) (i : Nat) (s' : Scheduler) (i' : Nat)
    (hq : 1 ≤ s.quantum) (h : rrStep s i = some (s', i')) :
    s.total_time ≤ s'.total_time ∧ s'.total_time ≤ s.total_time + max 1 s.quantum := by
  have hm1 : (1 : Int) ≤ max 1 s.quantum := le_max_left 1 s.quantum
  have hmq : s.quantum ≤ max 1 s.quantum := le_max_right 1 s.quantum
  unfold rrStep at h
  split at h
  · exact absurd h (by simp)
  · next j hj =>
    split at h
    · simp only [Option.some.injEq, Prod.mk.injEq] at h
      obtain ⟨hs, -⟩ := h
      rw [← hs]
      constructor <;> simp <;> omega
    · by_cases hf : j.is_first_run <;>
        simp only [hf, if_true, if_false, Bool.false_eq_true] at h <;>
        [skip; skip] <;>
      · by_cases hc1 : j.remaining_burst_time ≤ s.quantum ∧ 0 < j.remaining_burst_time
        · simp only [if_pos hc1, Option.some.injEq, Prod.mk.injEq] at h
          obtain ⟨hs, -⟩ := h
          rw [← hs]
          constructor <;> simp <;> omega
        · by_cases hc2 : 0 < j.remaining_burst_time
          · simp only [if_neg hc1, if_pos hc2, Option.some.injEq, Prod.mk.injEq] at h
            obtain ⟨hs, -⟩ := h
            rw [← hs]
            constructor <;> simp <;> omega
          · simp only [if_neg hc1, if_neg hc2, Option.some.injEq, Prod.mk.injEq] at h
            obtain ⟨hs, -⟩ := h
            rw [← hs]
            constructor <;> simp <;> omega

theorem srtnStep_clock (s : Scheduler) (i : Nat) (s' : Scheduler) (i' : Nat)
    (h : srtnStep s i = some (s', i')) :
    s'.total_time = s.total_time ∨ s'.total_time = s.total_time + 1 := by
  unfold srtnStep at h
  split at h
  · exact absurd h (by simp)
  · next j hj =>
    split at h
    · simp only [Option.some.injEq, Prod.mk.injEq] at h
      obtain ⟨hs, -⟩ := h
      exact Or.inr (by rw [← hs])
    · by_cases hf : j.is_first_run <;>
        simp only [hf, if_true, if_false, Bool.false_eq_true] at h <;>
      · by_cases hc : 0 < j.remaining_burst_time
        · by_cases hz : j.remaining_burst_time - 1 = 0
          · simp only [if_pos hc, if_pos hz, Option.some.injEq, Prod.mk.injEq] at h
            obtain ⟨hs, -⟩ := h
            exact Or.inr (by rw [← hs])
          · simp only [if_pos hc, if_neg hz, Option.some.injEq, Prod.mk.injEq] at h
            obtain ⟨hs, -⟩ := h
            exact Or.inr (by rw [← hs])
        · simp only [if_neg hc, Option.some.injEq, Prod.mk.injEq] at h
          obtain ⟨hs, -⟩ := h
          exact Or.inl (by rw [← hs])

/-- C7 counterexample: a FIFO dispatch step advances the clock by the job's
full remaining burst (here 5), which exceeds `max 1 quantum` (here 1): the
claim "never jumps by more than max(1, quantum) in a single step" fails. -/
theorem C7_clock_jump_counterexample :
    (fifoStep fifoBurst5Init 0).map (fun p => p.1.total_time) = some 5 ∧
    fifoBurst5Init.total_time = 0 ∧
    fifoBurst5Init.quantum = 1 ∧
    ¬ ((5 : Int) ≤ 0 + max 1 (1 : Int)) := by
  refine ⟨by decide, rfl, rfl, by decide⟩

/-- C7 (amended): the simulated clock starts at 0; each FIFO step advances it
by exactly 1 (idle) or by the dispatched job's full remaining burst; each RR
step with quantum >= 1 never decreases it and advances it by at most
`max 1 quantum`; each SRTN step advances it by exactly 0 or 1. -/
theorem C7_clock_steps :
    (∀ q : Int, (initScheduler q).total_time = 0) ∧
    (∀ (s : Scheduler) (i : Nat) (s' : Scheduler) (i' : Nat),
      fifoStep s i = some (s', i') →
      s'.total_time = s.total_time + 1 ∨
      ∃ j, s.job_list[i]? = some j ∧
        s'.total_time = s.total_time + j.remaining_burst_time) ∧
    (∀ (s : Scheduler) (i : Nat) (s' : Scheduler) (i' : Nat), 1 ≤ s.quantum →
      rrStep s i = some (s', i') →
      s.total_time ≤ s'.total_time ∧ s'.total_time ≤ s.total_time + max 1 s.quantum) ∧
    (∀ (s : Scheduler) (i : Nat) (s' : Scheduler) (i' : Nat),
      srtnStep s i = some (s', i') →
      s'.total_time = s.total_time ∨ s'.total_time = s.total_time + 1) :=
  ⟨fun _ => rfl, fifoStep_clock, rrStep_clock, srtnStep_clock⟩

/-- Witness for `C7_clock_steps`: the round-robin conjunct applied at a
concrete completed-job visit, plus the concrete FIFO 5-tick jump. -/
theorem C7_clock_steps_witness :
    (fifoStep fifoBurst5Init 0 = some (fifoBurst5After, 1)) ∧
    ((1 : Int) ≤ rrFrameState.quantum) ∧
    (rrStep rrFrameState 0 = some (rrFrameState, 1)) ∧
    (rrFrameState.total_time ≤ rrFrameState.total_time ∧
      rrFrameState.total_time ≤ rrFrameState.total_time + max 1 rrFrameState.quantum) := by
  refine ⟨by decide, by decide, by decide, ?_⟩
  exact C7_clock_steps.2.2.1 rrFrameState 0 rrFrameState 1 (by decide) (by decide)

/-! ## C4: FIFO completion order and recurrence -/

theorem idleN_job_list : ∀ (g : Nat) (s : Scheduler), (idleN g s).job_list = s.job_list
  | 0, _ => rfl
  | g + 1, s => idleN_job_list g _

theorem idleN_completed_jobs : ∀ (g : Nat) (s : Scheduler),
    (idleN g s).completed_jobs = s.completed_jobs
  | 0, _ => rfl
  | g + 1, s => idleN_completed_jobs g _

theorem idleN_num_jobs : ∀ (g : Nat) (s : Scheduler), (idleN g s).num_jobs = s.num_jobs
  | 0, _ => rfl
  | g + 1, s => idleN_num_jobs g _

theorem idleN_num_jobs_completed : ∀ (g : Nat) (s : Scheduler),
    (idleN g s).num_jobs_completed = s.num_jobs_completed
  | 0, _ => rfl
  | g + 1, s => idleN_num_jobs_completed g _

theorem idleN_quantum : ∀ (g : Nat) (s : Scheduler), (idleN g s).quantum = s.quantum
  | 0, _ => rfl
  | g + 1, s => idleN_quantum g _

theorem idleN_total_time : ∀ (g : Nat) (s : Scheduler),
    (idleN g s).total_time = s.total_time + g
  | 0, s => by simp [idleN]
  | g + 1, s => by
    rw [idleN, idleN_total_time g]
    simp
    omega

theorem getElem?_append_cons (pre : List Job) (j : Job) (rest : List Job) :
    (pre ++ j :: rest)[pre.length]? = some j := by
  induction pre with
  | nil => simp
  | cons a pre ih => simpa using ih

theorem set_append_cons (pre : List Job) (j x : Job) (rest : List Job) :
    (pre ++ j :: rest).set pre.length x = pre ++ x :: rest := by
  induction pre with
  | nil => rfl
  | cons a pre ih => simp [ih]

/-- While the job at the current index has not arrived, the FIFO loop spends
one unit of fuel per idle tick without touching anything but the clock and the
trace. -/
theorem fifo_idle_phase : ∀ (g k : Nat) (s : Scheduler) (i : Nat) (j : Job),
    s.job_list[i]? = some j →
    s.num_jobs ≠ s.num_jobs_completed →
    (j.arrival_time - s.total_time).toNat = g →
    runLoop fifoStep (g + k) s i = runLoop fifoStep k (idleN g s) i
  | 0, k, s, i, j, hj, hne, hg => by
    rw [Nat.zero_add]
    rfl
  | g + 1, k, s, i, j, hj, hne, hg => by
    have harr : s.total_time < j.arrival_time := by omega
    have hstep : fifoStep s i = some
        ({ s with total_time := s.total_time + 1,
                  print_str := s.print_str ++ "[--]" }, i) := by
      unfold fifoStep
      rw [hj]
      simp [harr]
    have hadd : (g + 1) + k = (g + k) + 1 := by omega
    rw [hadd]
    have hrest := fifo_idle_phase g k
      { s with total_time := s.total_time + 1, print_str := s.print_str ++ "[--]" }
      i j (by simpa using hj) (by simpa using hne) (by simp; omega)
    calc runLoop fifoStep ((g + k) + 1) s i
        = runLoop fifoStep (g + k)
            { s with total_time := s.total_time + 1,
                     print_str := s.print_str ++ "[--]" } i := by
          simp only [runLoop]
          rw [if_neg (fun hh => hne hh), hstep]
      _ = runLoop fifoStep k (idleN (g + 1) s) i := hrest

/-- Master characterisation of the FIFO loop: starting with `pre` already
dispatched (and counted) and `rest` untouched, the loop terminates and
finalises `rest` in order exactly as `fifoProcess` describes. -/
theorem fifo_master : ∀ (rest pre : List Job) (s : Scheduler),
    s.job_list = pre ++ rest →
    s.num_jobs = (pre ++ rest).length →
    s.num_jobs_completed = pre.length →
    ∃ fuel s', runLoop fifoStep fuel s pre.length = some s' ∧
      s'.completed_jobs = s.completed_jobs ++ fifoProcess s.total_time rest ∧
      s'.job_list = pre ++ fifoProcess s.total_time rest ∧
      s'.num_jobs = s.num_jobs ∧
      s'.num_jobs_completed = s.num_jobs ∧
      s'.quantum = s.quantum
  | [], pre, s, hjl, hnum, hcnt => by
    refine ⟨1, s, ?_, by simp [fifoProcess], by simpa [fifoProcess] using hjl, rfl, ?_, rfl⟩
    · simp only [runLoop]
      rw [if_pos (by rw [hnum, hcnt]; simp)]
    · rw [hnum, hcnt]; simp
  | j :: rest', pre, s, hjl, hnum, hcnt => by
    have hj : s.job_list[pre.length]? = some j := by
      rw [hjl]; exact getElem?_append_cons pre j rest'
    have hne : s.num_jobs ≠ s.num_jobs_completed := by
      rw [hnum, hcnt]; simp
    set g := (j.arrival_time - s.total_time).toNat with hg
    have hj0 : (idleN g s).job_list[pre.length]? = some j := by
      rw [idleN_job_list]; exact hj
    have harr0 : ¬ (idleN g s).total_time < j.arrival_time := by
      rw [idleN_total_time]; omega
    have hmax : (idleN g s).total_time = max s.total_time j.arrival_time := by
      rw [idleN_total_time]; omega
    have hstep : fifoStep (idleN g s) pre.length = some
        ({ idleN g s with
            total_time := (fifoFinish s.total_time j).completion_time
            print_str := (idleN g s).print_str ++
              mulStr (jobLabel j.job_number) j.remaining_burst_time
            job_list := (idleN g s).job_list.set pre.length (fifoFinish s.total_time j)
            completed_jobs := (idleN g s).completed_jobs ++ [fifoFinish s.total_time j]
            num_jobs_completed := (idleN g s).num_jobs_completed + 1 },
          pre.length + 1) := by
      unfold fifoStep
      rw [hj0]
      simp only [harr0, if_false]
      unfold fifoFinish
      rw [← hmax]
    obtain ⟨f, s', hrun, hcompl, hjobs, hnumj, hcntj, hquant⟩ :=
      fifo_master rest' (pre ++ [fifoFinish s.total_time j])
        ({ idleN g s with
            total_time := (fifoFinish s.total_time j).completion_time
            print_str := (idleN g s).print_str ++
              mulStr (jobLabel j.job_number) j.remaining_burst_time
            job_list := (idleN g s).job_list.set pre.length (fifoFinish s.total_time j)
            completed_jobs := (idleN g s).completed_jobs ++ [fifoFinish s.total_time j]
            num_jobs_completed := (idleN g s).num_jobs_completed + 1 })
        (by
          show (idleN g s).job_list.set pre.length (fifoFinish s.total_time j)
            = (pre ++ [fifoFinish s.total_time j]) ++ rest'
          rw [idleN_job_list, hjl, set_append_cons]
          simp)
        (by
          show (idleN g s).num_jobs = ((pre ++ [fifoFinish s.total_time j]) ++ rest').length
          rw [idleN_num_jobs, hnum]
          simp)
        (by
          show (idleN g s).num_jobs_completed + 1 = (pre ++ [fifoFinish s.total_time j]).length
          rw [idleN_num_jobs_completed, hcnt]
          simp)
    refine ⟨g + (1 + f), s', ?_, ?_, ?_, ?_, ?_, ?_⟩
    · rw [fifo_idle_phase g (1 + f) s pre.length j hj hne hg.symm]
      have h1 : (1 + f) = f + 1 := by omega
      rw [h1]
      simp only [runLoop]
      rw [if_neg (by
        rw [idleN_num_jobs, idleN_num_jobs_completed]
        exact fun hh => hne hh)]
      rw [hstep]
      have hidx : (pre ++ [fifoFinish s.total_time j]).length = pre.length + 1 := by simp
      rw [← hidx]
      exact hrun
    · rw [hcompl]
      simp only [idleN_completed_jobs]
      show s.completed_jobs ++ [fifoFinish s.total_time j] ++
          fifoProcess (fifoFinish s.total_time j).completion_time rest' =
        s.completed_jobs ++ fifoProcess s.total_time (j :: rest')
      rw [List.append_assoc]
      rfl
    · rw [hjobs]
      show (pre ++ [fifoFinish s.total_time j]) ++
          fifoProcess (fifoFinish s.total_time j).completion_time rest' =
        pre ++ fifoProcess s.total_time (j :: rest')
      rw [List.append_assoc]
      rfl
    · rw [hnumj]; exact idleN_num_jobs g s
    · rw [hcntj]; exact idleN_num_jobs g s
    · rw [hquant]; exact idleN_quantum g s

theorem fifoProcess_map_number : ∀ (t : Int) (jobs : List Job),
    (fifoProcess t jobs).map Job.job_number = jobs.map Job.job_number
  | _, [] => rfl
  | t, j :: rest => by
    simp only [fifoProcess, List.map_cons]
    rw [fifoProcess_map_number (fifoFinish t j).completion_time rest]
    rfl

theorem fifoProcess_completion_rec : ∀ (jobs : List Job) (t : Int) (i : Nat),
    i + 1 < jobs.length →
    ((fifoProcess t jobs).map Job.completion_time).getD (i + 1) 0 =
      max (((fifoProcess t jobs).map Job.completion_time).getD i 0)
        (jobs.getD (i + 1) default).arrival_time +
        (jobs.getD (i + 1) default).remaining_burst_time
  | [], _, _, h => by simp at h
  | j :: rest, t, 0, h => by
    cases rest with
    | nil => simp at h
    | cons j1 rest1 =>
      simp [fifoProcess, fifoFinish]
  | j :: rest, t, i + 1, h => by
    simp only [fifoProcess, List.map_cons, List.getD_cons_succ]
    exact fifoProcess_completion_rec rest (fifoFinish t j).completion_time i (by simpa using h)

theorem fifoProcess_first_bounds : ∀ (t : Int) (jobs : List Job),
    (∀ j ∈ jobs, 0 ≤ j.remaining_burst_time) →
    ∀ x ∈ fifoProcess t jobs,
      x.arrival_time ≤ x.first_time_running ∧
      x.first_time_running ≤ x.completion_time
  | _, [], _, x, hx => by simp [fifoProcess] at hx
  | t, j :: rest, hval, x, hx => by
    simp only [fifoProcess, List.mem_cons] at hx
    rcases hx with rfl | hx
    · have hrem := hval j (List.mem_cons_self j rest)
      constructor
      · simp [fifoFinish]
      · simp only [fifoFinish]
        omega
    · exact fifoProcess_first_bounds (fifoFinish t j).completion_time rest
        (fun y hy => hval y (List.mem_cons_of_mem _ hy)) x hx

/-- C4: under FIFO, for every arrival-sorted list of fresh jobs, the engine
terminates with the jobs completed in list (= arrival) order, and the
completion times satisfy the claim's recurrence
`completion[i+1] = if arrival[i+1] <= completion[i] then completion[i] + burst[i+1]
else arrival[i+1] + burst[i+1]`; in particular the example job set completes
at ticks 5, 8, 16 with wait times 0, 4, 6. -/
theorem C4_fifo_completion (jobs : List Job) (q : Int)
    (hfresh : ∀ j ∈ jobs, j.remaining_burst_time = j.total_run_time)
    (hsorted : jobs.Pairwise (fun a b => a.arrival_time ≤ b.arrival_time)) :
    (∃ fuel s', scheduler_fifo fuel (submit_jobs (initScheduler q) jobs) = some s' ∧
      s'.completed_jobs = fifoProcess 0 jobs ∧
      s'.completed_jobs.map Job.job_number = jobs.map Job.job_number ∧
      (∀ i, i + 1 < jobs.length →
        (s'.completed_jobs.map Job.completion_time).getD (i + 1) 0 =
          if (jobs.getD (i + 1) default).arrival_time ≤
              (s'.completed_jobs.map Job.completion_time).getD i 0 then
            (s'.completed_jobs.map Job.completion_time).getD i 0 +
              (jobs.getD (i + 1) default).total_run_time
          else
            (jobs.getD (i + 1) default).arrival_time +
              (jobs.getD (i + 1) default).total_run_time)) ∧
    ((scheduler_fifo 8 exampleInit).map (fun s =>
        s.completed_jobs.map (fun j => (j.job_number, j.completion_time, j.compute_wait_time))) =
      some [(0, 5, 0), (1, 8, 4), (2, 16, 6)]) := by
  constructor
  · have hjl : (submit_jobs (initScheduler q) jobs).job_list = [] ++ jobs := by
      simp [submit_jobs, initScheduler]
    have hnum : (submit_jobs (initScheduler q) jobs).num_jobs = ([] ++ jobs).length := by
      simp [submit_jobs, initScheduler]
    have hcnt : (submit_jobs (initScheduler q) jobs).num_jobs_completed
        = ([] : List Job).length := by
      simp [submit_jobs, initScheduler]
    obtain ⟨fuel, s', hrun, hcompl, hjobs, -, -, -⟩ := fifo_master jobs [] _ hjl hnum hcnt
    have htot : (submit_jobs (initScheduler q) jobs).total_time = 0 := by
      simp [submit_jobs, initScheduler]
    have hcmp : (submit_jobs (initScheduler q) jobs).completed_jobs = [] := by
      simp [submit_jobs, initScheduler]
    rw [htot, hcmp, List.nil_append] at hcompl
    cases jobs with
    | nil =>
      refine ⟨1, submit_jobs (initScheduler q) [], rfl, by simp [fifoProcess, submit_jobs, initScheduler], rfl, ?_⟩
      intro i hi
      simp at hi
    | cons j0 jrest =>
      refine ⟨fuel, s', ?_, hcompl, ?_, ?_⟩
      · unfold scheduler_fifo
        rw [if_neg (by rw [hjl]; simp)]
        exact hrun
      · rw [hcompl]
        exact fifoProcess_map_number 0 (j0 :: jrest)
      · intro i hi
        rw [hcompl, fifoProcess_completion_rec (j0 :: jrest) 0 i hi]
        have hmem : (j0 :: jrest).getD (i + 1) default ∈ (j0 :: jrest) := by
          rw [List.getD_eq_getElem _ _ hi]
          exact List.getElem_mem hi
        rw [← hfresh _ hmem]
        rcases le_or_lt ((j0 :: jrest).getD (i + 1) default).arrival_time
            (((fifoProcess 0 (j0 :: jrest)).map Job.completion_time).getD i 0) with hle | hlt
        · rw [if_pos hle, max_eq_left hle]
        · rw [if_neg (not_le.mpr hlt), max_eq_right (le_of_lt hlt)]
  · decide

/-- Witness for `C4_fifo_completion` at the spec's example job set. -/
theorem C4_fifo_completion_witness :
    (∀ j ∈ exampleJobs, j.remaining_burst_time = j.total_run_time) ∧
    exampleJobs.Pairwise (fun a b => a.arrival_time ≤ b.arrival_time) ∧
    ((∃ fuel s', scheduler_fifo fuel (submit_jobs (initScheduler 1) exampleJobs) = some s' ∧
      s'.completed_jobs = fifoProcess 0 exampleJobs ∧
      s'.completed_jobs.map Job.job_number = exampleJobs.map Job.job_number ∧
      (∀ i, i + 1 < exampleJobs.length →
        (s'.completed_jobs.map Job.completion_time).getD (i + 1) 0 =
          if (exampleJobs.getD (i + 1) default).arrival_time ≤
              (s'.completed_jobs.map Job.completion_time).getD i 0 then
            (s'.completed_jobs.map Job.completion_time).getD i 0 +
              (exampleJobs.getD (i + 1) default).total_run_time
          else
            (exampleJobs.getD (i + 1) default).arrival_time +
              (exampleJobs.getD (i + 1) default).total_run_time)) ∧
    ((scheduler_fifo 8 exampleInit).map (fun s =>
        s.completed_jobs.map (fun j => (j.job_number, j.completion_time, j.compute_wait_time))) =
      some [(0, 5, 0), (1, 8, 4), (2, 16, 6)])) :=
  ⟨by decide, by decide, C4_fifo_completion exampleJobs 1 (by decide) (by decide)⟩

/-! ## C8: first-run and completion bounds -/

theorem ValidJob.mono {t t' : Int} (h : t ≤ t') {j : Job} (hv : ValidJob t j) :
    ValidJob t' j := by
  intro hf
  obtain ⟨h1, h2⟩ := hv hf
  exact ⟨h1, le_trans h2 h⟩

theorem valid_set {t t' : Int} (h : t ≤ t') {l : List Job} {i : Nat} {x' : Job}
    (hinv : ∀ j ∈ l, ValidJob t j) (hx' : ValidJob t' x') :
    ∀ j ∈ l.set i x', ValidJob t' j := by
  intro j hj
  rcases List.mem_or_eq_of_mem_set hj with hj' | rfl
  · exact ValidJob.mono h (hinv j hj')
  · exact hx'

theorem completed_append {l : List Job} {x : Job}
    (hl : ∀ j ∈ l, CompletedOK j) (hx : CompletedOK x) :
    ∀ j ∈ l ++ [x], CompletedOK j := by
  intro j hj
  rcases List.mem_append.mp hj with hj' | hj'
  · exact hl j hj'
  · rw [List.mem_singleton.mp hj']
    exact hx

/-- One RR loop iteration preserves the invariant (quantum at least 1). -/
theorem rrStep_valid (s : Scheduler) (i : Nat) (s' : Scheduler) (i' : Nat)
    (hq : 1 ≤ s.quantum)
    (hstep : rrStep s i = some (s', i'))
    (hinv : ∀ j ∈ s.job_list, ValidJob s.total_time j)
    (hcomp : ∀ j ∈ s.completed_jobs, CompletedOK j) :
    s'.quantum = s.quantum ∧
    (∀ j ∈ s'.job_list, ValidJob s'.total_time j) ∧
    (∀ j ∈ s'.completed_jobs, CompletedOK j) := by
  unfold rrStep at hstep
  split at hstep
  · exact absurd hstep (by simp)
  · next j hj =>
    have hjmem : j ∈ s.job_list := List.mem_iff_getElem?.mpr ⟨i, hj⟩
    split at hstep
    · simp only [Option.some.injEq, Prod.mk.injEq] at hstep
      obtain ⟨hs, -⟩ := hstep
      subst hs
      exact ⟨rfl, fun x hx => ValidJob.mono (by dsimp only; omega) (hinv x hx), hcomp⟩
    · next hidle =>
      have harr : j.arrival_time ≤ s.total_time := not_lt.mp hidle
      by_cases hf : j.is_first_run
      · simp only [hf, if_true, List.set_set] at hstep
        by_cases hc1 : j.remaining_burst_time ≤ s.quantum ∧ 0 < j.remaining_burst_time
        · obtain ⟨hle1, hpos1⟩ := hc1
          simp only [if_pos (And.intro hle1 hpos1), Option.some.injEq, Prod.mk.injEq] at hstep
          obtain ⟨hs, -⟩ := hstep
          subst hs
          refine ⟨rfl, valid_set (by dsimp only; omega) hinv ?_, completed_append hcomp ?_⟩
          · intro _
            dsimp only
            omega
          · unfold CompletedOK
            dsimp only
            omega
        · by_cases hc2 : 0 < j.remaining_burst_time
          · simp only [if_neg hc1, if_pos hc2, Option.some.injEq, Prod.mk.injEq] at hstep
            obtain ⟨hs, -⟩ := hstep
            subst hs
            refine ⟨rfl, valid_set (by dsimp only; omega) hinv ?_, hcomp⟩
            intro _
            dsimp only
            omega
          · simp only [if_neg hc1, if_neg hc2, Option.some.injEq, Prod.mk.injEq] at hstep
            obtain ⟨hs, -⟩ := hstep
            subst hs
            refine ⟨rfl, valid_set (by dsimp only; omega) hinv ?_, hcomp⟩
            intro _
            dsimp only
            omega
      · rw [Bool.not_eq_true] at hf
        obtain ⟨hfa, hfb⟩ := hinv j hjmem hf
        simp only [hf, Bool.false_eq_true, if_false, List.set_set] at hstep
        by_cases hc1 : j.remaining_burst_time ≤ s.quantum ∧ 0 < j.remaining_burst_time
        · obtain ⟨hle1, hpos1⟩ := hc1
          simp only [if_pos (And.intro hle1 hpos1), Option.some.injEq, Prod.mk.injEq] at hstep
          obtain ⟨hs, -⟩ := hstep
          subst hs
          refine ⟨rfl, valid_set (by dsimp only; omega) hinv ?_, completed_append hcomp ?_⟩
          · intro _
            dsimp only
            omega
          · unfold CompletedOK
            dsimp only
            omega
        · by_cases hc2 : 0 < j.remaining_burst_time
          · simp only [if_neg hc1, if_pos hc2, Option.some.injEq, Prod.mk.injEq] at hstep
            obtain ⟨hs, -⟩ := hstep
            subst hs
            refine ⟨rfl, valid_set (by dsimp only; omega) hinv ?_, hcomp⟩
            intro _
            dsimp only
            omega
          · simp only [if_neg hc1, if_neg hc2, Option.some.injEq, Prod.mk.injEq] at hstep
            obtain ⟨hs, -⟩ := hstep
            subst hs
            refine ⟨rfl, valid_set (by dsimp only; omega) hinv ?_, hcomp⟩
            intro _
            dsimp only
            omega

/-- One SRTN loop iteration preserves the invariant. -/
theorem srtnStep_valid (s : Scheduler) (i : Nat) (s' : Scheduler) (i' : Nat)
    (hstep : srtnStep s i = some (s', i'))
    (hinv : ∀ j ∈ s.job_list, ValidJob s.total_time j)
    (hcomp : ∀ j ∈ s.completed_jobs, CompletedOK j) :
    (∀ j ∈ s'.job_list, ValidJob s'.total_time j) ∧
    (∀ j ∈ s'.completed_jobs, CompletedOK j) := by
  unfold srtnStep at hstep
  split at hstep
  · exact absurd hstep (by simp)
  · next j hj =>
    have hjmem : j ∈ s.job_list := List.mem_iff_getElem?.mpr ⟨i, hj⟩
    split at hstep
    · simp only [Option.some.injEq, Prod.mk.injEq] at hstep
      obtain ⟨hs, -⟩ := hstep
      subst hs
      exact ⟨fun x hx => ValidJob.mono (by dsimp only; omega) (hinv x hx), hcomp⟩
    · next hidle =>
      have harr : j.arrival_time ≤ s.total_time := not_lt.mp hidle
      by_cases hf : j.is_first_run
      · simp only [hf, if_true, List.set_set] at hstep
        by_cases hc : 0 < j.remaining_burst_time
        · by_cases hz : j.remaining_burst_time - 1 = 0
          · simp only [if_pos hc, if_pos hz, Option.some.injEq, Prod.mk.injEq] at hstep
            obtain ⟨hs, -⟩ := hstep
            subst hs
            refine ⟨valid_set (by dsimp only; omega) hinv ?_, completed_append hcomp ?_⟩
            · intro _
              dsimp only
              omega
            · unfold CompletedOK
              dsimp only
              omega
          · simp only [if_pos hc, if_neg hz, Option.some.injEq, Prod.mk.injEq] at hstep
            obtain ⟨hs, -⟩ := hstep
            subst hs
            refine ⟨valid_set (by dsimp only; omega) hinv ?_, hcomp⟩
            intro _
            dsimp only
            omega
        · simp only [if_neg hc, Option.some.injEq, Prod.mk.injEq] at hstep
          obtain ⟨hs, -⟩ := hstep
          subst hs
          refine ⟨valid_set (by dsimp only; omega) hinv ?_, hcomp⟩
          intro _
          dsimp only
          omega
      · rw [Bool.not_eq_true] at hf
        obtain ⟨hfa, hfb⟩ := hinv j hjmem hf
        simp only [hf, Bool.false_eq_true, if_false, List.set_set] at hstep
        by_cases hc : 0 < j.remaining_burst_time
        · by_cases hz : j.remaining_burst_time - 1 = 0
          · simp only [if_pos hc, if_pos hz, Option.some.injEq, Prod.mk.injEq] at hstep
            obtain ⟨hs, -⟩ := hstep
            subst hs
            refine ⟨valid_set (by dsimp only; omega) hinv ?_, completed_append hcomp ?_⟩
            · intro _
              dsimp only
              omega
            · unfold CompletedOK
              dsimp only
              omega
          · simp only [if_pos hc, if_neg hz, Option.some.injEq, Prod.mk.injEq] at hstep
            obtain ⟨hs, -⟩ := hstep
            subst hs
            refine ⟨valid_set (by dsimp only; omega) hinv ?_, hcomp⟩
            intro _
            dsimp only
            omega
        · simp only [if_neg hc, Option.some.injEq, Prod.mk.injEq] at hstep
          obtain ⟨hs, -⟩ := hstep
          subst hs
          refine ⟨valid_set (by dsimp only; omega) hinv ?_, hcomp⟩
          intro _
          dsimp only
          omega

/-- Along any terminating RR run with quantum at least 1, every completed job
satisfies C8's inequalities. -/
theorem rr_loop_valid : ∀ (fuel : Nat) (s : Scheduler) (i : Nat) (s' : Scheduler),
    1 ≤ s.quantum →
    (∀ j ∈ s.job_list, ValidJob s.total_time j) →
    (∀ j ∈ s.completed_jobs, CompletedOK j) →
    runLoop rrStep fuel s i = some s' →
    ∀ j ∈ s'.completed_jobs, CompletedOK j
  | 0, s, i, s', _, _, _, h => by simp [runLoop] at h
  | fuel + 1, s, i, s', hq, hinv, hcomp, h => by
    simp only [runLoop] at h
    by_cases hdone : s.num_jobs = s.num_jobs_completed
    · rw [if_pos hdone] at h
      rw [← Option.some.inj h]
      exact hcomp
    · rw [if_neg hdone] at h
      cases hs : rrStep s i with
      | none => rw [hs] at h; simp at h
      | some p =>
        obtain ⟨s1, i1⟩ := p
        rw [hs] at h
        obtain ⟨hq1, hinv1, hcomp1⟩ := rrStep_valid s i s1 i1 hq hs hinv hcomp
        exact rr_loop_valid fuel s1 i1 s' (by rw [hq1]; exact hq) hinv1 hcomp1 h

/-- Along any terminating SRTN run, every completed job satisfies C8's
inequalities. -/
theorem srtn_loop_valid : ∀ (fuel : Nat) (s : Scheduler) (i : Nat) (s' : Scheduler),
    (∀ j ∈ s.job_list, ValidJob s.total_time j) →
    (∀ j ∈ s.completed_jobs, CompletedOK j) →
    runLoop srtnStep fuel s i = some s' →
    ∀ j ∈ s'.completed_jobs, CompletedOK j
  | 0, s, i, s', _, _, h => by simp [runLoop] at h
  | fuel + 1, s, i, s', hinv, hcomp, h => by
    simp only [runLoop] at h
    by_cases hdone : s.num_jobs = s.num_jobs_completed
    · rw [if_pos hdone] at h
      rw [← Option.some.inj h]
      exact hcomp
    · rw [if_neg hdone] at h
      cases hs : srtnStep s i with
      | none => rw [hs] at h; simp at h
      | some p =>
        obtain ⟨s1, i1⟩ := p
        rw [hs] at h
        obtain ⟨hinv1, hcomp1⟩ := srtnStep_valid s i s1 i1 hs hinv hcomp
        exact srtn_loop_valid fuel s1 i1 s' hinv1 hcomp1 h

/-- Either a loop iteration leaves the rotation untouched, or it rewrites only
the scheduled index, preserving an already-dispatched job's first-run data. -/
theorem first_stable_of_shape {s s' : Scheduler} {i : Nat}
    (hsh : s'.job_list = s.job_list ∨
      ∃ j0 X, s.job_list[i]? = some j0 ∧ s'.job_list = s.job_list.set i X ∧
        (j0.is_first_run = false →
          X.first_time_running = j0.first_time_running ∧ X.is_first_run = false)) :
    ∀ (k : Nat) (j j' : Job), s.job_list[k]? = some j → s'.job_list[k]? = some j' →
      j.is_first_run = false →
      j'.first_time_running = j.first_time_running ∧ j'.is_first_run = false := by
  intro k j j' hk hk' hf
  rcases hsh with hsame | ⟨j0, X, hj0, hset, himp⟩
  · rw [hsame, hk] at hk'
    injection hk' with e
    subst e
    exact ⟨rfl, hf⟩
  · by_cases hki : i = k
    · subst hki
      rw [hj0] at hk
      injection hk with e
      subst e
      have hlen : i < s.job_list.length := by
        obtain ⟨hl, -⟩ := List.getElem?_eq_some.mp hj0
        exact hl
      rw [hset, List.getElem?_set_self hlen] at hk'
      injection hk' with e'
      subst e'
      exact himp hf
    · rw [hset, List.getElem?_set_ne hki, hk] at hk'
      injection hk' with e
      subst e
      exact ⟨rfl, hf⟩

theorem rrStep_shape (s : Scheduler) (i : Nat) (s' : Scheduler) (i' : Nat)
    (hstep : rrStep s i = some (s', i')) :
    s'.job_list = s.job_list ∨
    ∃ j0 X, s.job_list[i]? = some j0 ∧ s'.job_list = s.job_list.set i X ∧
      (j0.is_first_run = false →
        X.first_time_running = j0.first_time_running ∧ X.is_first_run = false) := by
  unfold rrStep at hstep
  split at hstep
  · exact absurd hstep (by simp)
  · next j0 hj0 =>
    split at hstep
    · simp only [Option.some.injEq, Prod.mk.injEq] at hstep
      obtain ⟨hs, -⟩ := hstep
      subst hs
      exact Or.inl rfl
    · by_cases hf : j0.is_first_run
      · simp only [hf, if_true, List.set_set] at hstep
        have hcontra : j0.is_first_run = false → False := by
          intro hff
          rw [hff] at hf
          exact absurd hf (by simp)
        by_cases hc1 : j0.remaining_burst_time ≤ s.quantum ∧ 0 < j0.remaining_burst_time
        · simp only [if_pos hc1, Option.some.injEq, Prod.mk.injEq] at hstep
          obtain ⟨hs, -⟩ := hstep
          subst hs
          exact Or.inr ⟨j0, _, hj0, rfl, fun hff => absurd (hcontra hff) id⟩
        · by_cases hc2 : 0 < j0.remaining_burst_time
          · simp only [if_neg hc1, if_pos hc2, Option.some.injEq, Prod.mk.injEq] at hstep
            obtain ⟨hs, -⟩ := hstep
            subst hs
            exact Or.inr ⟨j0, _, hj0, rfl, fun hff => absurd (hcontra hff) id⟩
          · simp only [if_neg hc1, if_neg hc2, Option.some.injEq, Prod.mk.injEq] at hstep
            obtain ⟨hs, -⟩ := hstep
            subst hs
            exact Or.inr ⟨j0, _, hj0, rfl, fun hff => absurd (hcontra hff) id⟩
      · rw [Bool.not_eq_true] at hf
        simp only [hf, Bool.false_eq_true, if_false, List.set_set] at hstep
        by_cases hc1 : j0.remaining_burst_time ≤ s.quantum ∧ 0 < j0.remaining_burst_time
        · simp only [if_pos hc1, Option.some.injEq, Prod.mk.injEq] at hstep
          obtain ⟨hs, -⟩ := hstep
          subst hs
          exact Or.inr ⟨j0, _, hj0, rfl, fun _ => ⟨rfl, rfl⟩⟩
        · by_cases hc2 : 0 < j0.remaining_burst_time
          · simp only [if_neg hc1, if_pos hc2, Option.some.injEq, Prod.mk.injEq] at hstep
            obtain ⟨hs, -⟩ := hstep
            subst hs
            exact Or.inr ⟨j0, _, hj0, rfl, fun _ => ⟨rfl, rfl⟩⟩
          · simp only [if_neg hc1, if_neg hc2, Option.some.injEq, Prod.mk.injEq] at hstep
            obtain ⟨hs, -⟩ := hstep
            subst hs
            exact Or.inr ⟨j0, _, hj0, rfl, fun hff => ⟨rfl, hff⟩⟩

theorem srtnStep_shape (s : Scheduler) (i : Nat) (s' : Scheduler) (i' : Nat)
    (hstep : srtnStep s i = some (s', i')) :
    s'.job_list = s.job_list ∨
    ∃ j0 X, s.job_list[i]? = some j0 ∧ s'.job_list = s.job_list.set i X ∧
      (j0.is_first_run = false →
        X.first_time_running = j0.first_time_running ∧ X.is_first_run = false) := by
  unfold srtnStep at hstep
  split at hstep
  · exact absurd hstep (by simp)
  · next j0 hj0 =>
    split at hstep
    · simp only [Option.some.injEq, Prod.mk.injEq] at hstep
      obtain ⟨hs, -⟩ := hstep
      subst hs
      exact Or.inl rfl
    · by_cases hf : j0.is_first_run
      · simp only [hf, if_true, List.set_set] at hstep
        have hcontra : j0.is_first_run = false → False := by
          intro hff
          rw [hff] at hf
          exact absurd hf (by simp)
        by_cases hc : 0 < j0.remaining_burst_time
        · by_cases hz : j0.remaining_burst_time - 1 = 0
          · simp only [if_pos hc, if_pos hz, Option.some.injEq, Prod.mk.injEq] at hstep
            obtain ⟨hs, -⟩ := hstep
            subst hs
            exact Or.inr ⟨j0, _, hj0, rfl, fun hff => absurd (hcontra hff) id⟩
          · simp only [if_pos hc, if_neg hz, Option.some.injEq, Prod.mk.injEq] at hstep
            obtain ⟨hs, -⟩ := hstep
            subst hs
            exact Or.inr ⟨j0, _, hj0, rfl, fun hff => absurd (hcontra hff) id⟩
        · simp only [if_neg hc, Option.some.injEq, Prod.mk.injEq] at hstep
          obtain ⟨hs, -⟩ := hstep
          subst hs
          exact Or.inr ⟨j0, _, hj0, rfl, fun hff => absurd (hcontra hff) id⟩
      · rw [Bool.not_eq_true] at hf
        simp only [hf, Bool.false_eq_true, if_false, List.set_set] at hstep
        by_cases hc : 0 < j0.remaining_burst_time
        · by_cases hz : j0.remaining_burst_time - 1 = 0
          · simp only [if_pos hc, if_pos hz, Option.some.injEq, Prod.mk.injEq] at hstep
            obtain ⟨hs, -⟩ := hstep
            subst hs
            exact Or.inr ⟨j0, _, hj0, rfl, fun _ => ⟨rfl, rfl⟩⟩
          · simp only [if_pos hc, if_neg hz, Option.some.injEq, Prod.mk.injEq] at hstep
            obtain ⟨hs, -⟩ := hstep
            subst hs
            exact Or.inr ⟨j0, _, hj0, rfl, fun _ => ⟨rfl, rfl⟩⟩
        · simp only [if_neg hc, Option.some.injEq, Prod.mk.injEq] at hstep
          obtain ⟨hs, -⟩ := hstep
          subst hs
          exact Or.inr ⟨j0, _, hj0, rfl, fun hff => ⟨rfl, hff⟩⟩

theorem fifoStep_locality (s : Scheduler) (i : Nat) (s' : Scheduler) (i' : Nat)
    (hstep : fifoStep s i = some (s', i')) :
    (i' = i ∧ s'.job_list = s.job_list) ∨
    (i' = i + 1 ∧ ∀ k, k ≠ i → s'.job_list[k]? = s.job_list[k]?) := by
  unfold fifoStep at hstep
  split at hstep
  · exact absurd hstep (by simp)
  · next j0 hj0 =>
    split at hstep
    · simp only [Option.some.injEq, Prod.mk.injEq] at hstep
      obtain ⟨hs, hi⟩ := hstep
      subst hs
      exact Or.inl ⟨hi.symm, rfl⟩
    · simp only [Option.some.injEq, Prod.mk.injEq] at hstep
      obtain ⟨hs, hi⟩ := hstep
      subst hs
      refine Or.inr ⟨hi.symm, ?_⟩
      intro k hk
      exact List.getElem?_set_ne (fun he => hk he.symm)

/-- C8: for every job that completes under any policy,
`completionTime ≥ firstRunTime ≥ arrivalTime` (FIFO needs non-negative bursts;
RR needs quantum ≥ 1; jobs submitted fresh), and `firstRunTime` is assigned
exactly once: under RR and SRTN a step never changes the `first_time_running`
of a job whose first-run flag is already cleared (it is assigned at the first
dispatch, which also clears the flag), and under FIFO a step either idles
(list untouched, index kept) or dispatches, writing only the current index
and moving permanently to the next one. -/
theorem C8_first_run_bounds :
    (∀ (jobs : List Job) (q : Int),
      (∀ j ∈ jobs, 0 ≤ j.remaining_burst_time) →
      ∃ fuel s', scheduler_fifo fuel (submit_jobs (initScheduler q) jobs) = some s' ∧
        ∀ x ∈ s'.completed_jobs,
          x.arrival_time ≤ x.first_time_running ∧
          x.first_time_running ≤ x.completion_time) ∧
    (∀ (jobs : List Job) (q : Int) (fuel : Nat) (s' : Scheduler),
      1 ≤ q → (∀ j ∈ jobs, j.is_first_run = true) →
      scheduler_rr fuel (submit_jobs (initScheduler q) jobs) = some s' →
      ∀ x ∈ s'.completed_jobs,
        x.arrival_time ≤ x.first_time_running ∧
        x.first_time_running ≤ x.completion_time) ∧
    (∀ (jobs : List Job) (q : Int) (fuel : Nat) (s' : Scheduler),
      (∀ j ∈ jobs, j.is_first_run = true) →
      scheduler_srtn fuel (submit_jobs (initScheduler q) jobs) = some s' →
      ∀ x ∈ s'.completed_jobs,
        x.arrival_time ≤ x.first_time_running ∧
        x.first_time_running ≤ x.completion_time) ∧
    (∀ (s : Scheduler) (i : Nat) (s' : Scheduler) (i' : Nat) (k : Nat) (j j' : Job),
      rrStep s i = some (s', i') → s.job_list[k]? = some j →
      s'.job_list[k]? = some j' → j.is_first_run = false →
      j'.first_time_running = j.first_time_running ∧ j'.is_first_run = false) ∧
    (∀ (s : Scheduler) (i : Nat) (s' : Scheduler) (i' : Nat) (k : Nat) (j j' : Job),
      srtnStep s i = some (s', i') → s.job_list[k]? = some j →
      s'.job_list[k]? = some j' → j.is_first_run = false →
      j'.first_time_running = j.first_time_running ∧ j'.is_first_run = false) ∧
    (∀ (s : Scheduler) (i : Nat) (s' : Scheduler) (i' : Nat),
      fifoStep s i = some (s', i') →
      (i' = i ∧ s'.job_list = s.job_list) ∨
      (i' = i + 1 ∧ ∀ k, k ≠ i → s'.job_list[k]? = s.job_list[k]?)) := by
  refine ⟨?_, ?_, ?_, ?_, ?_, fifoStep_locality⟩
  · intro jobs q hval
    have hjl : (submit_jobs (initScheduler q) jobs).job_list = [] ++ jobs := by
      simp [submit_jobs, initScheduler]
    have hnum : (submit_jobs (initScheduler q) jobs).num_jobs = ([] ++ jobs).length := by
      simp [submit_jobs, initScheduler]
    have hcnt : (submit_jobs (initScheduler q) jobs).num_jobs_completed
        = ([] : List Job).length := by
      simp [submit_jobs, initScheduler]
    obtain ⟨fuel, s', hrun, hcompl, -, -, -, -⟩ := fifo_master jobs [] _ hjl hnum hcnt
    have htot : (submit_jobs (initScheduler q) jobs).total_time = 0 := by
      simp [submit_jobs, initScheduler]
    have hcmp : (submit_jobs (initScheduler q) jobs).completed_jobs = [] := by
      simp [submit_jobs, initScheduler]
    rw [htot, hcmp, List.nil_append] at hcompl
    cases jobs with
    | nil =>
      refine ⟨1, submit_jobs (initScheduler q) [], rfl, ?_⟩
      intro x hx
      simp [submit_jobs, initScheduler] at hx
    | cons j0 jrest =>
      refine ⟨fuel, s', ?_, ?_⟩
      · unfold scheduler_fifo
        rw [if_neg (by rw [hjl]; simp)]
        exact hrun
      · rw [hcompl]
        exact fifoProcess_first_bounds 0 (j0 :: jrest) hval
  · intro jobs q fuel s' hq hfresh hrun
    unfold scheduler_rr at hrun
    by_cases hemp : (submit_jobs (initScheduler q) jobs).job_list.length = 0
    · rw [if_pos hemp] at hrun
      rw [← Option.some.inj hrun]
      intro x hx
      simp [submit_jobs, initScheduler] at hx
    · rw [if_neg hemp] at hrun
      refine rr_loop_valid fuel _ 0 s' ?_ ?_ ?_ hrun
      · show 1 ≤ (submit_jobs (initScheduler q) jobs).quantum
        simpa [submit_jobs, initScheduler] using hq
      · intro j hj hff
        have hjm : j ∈ jobs := by simpa [submit_jobs, initScheduler] using hj
        rw [hfresh j hjm] at hff
        exact absurd hff (by simp)
      · intro j hj
        simp [submit_jobs, initScheduler] at hj
  · intro jobs q fuel s' hfresh hrun
    unfold scheduler_srtn at hrun
    by_cases hemp : (submit_jobs (initScheduler q) jobs).job_list.length = 0
    · rw [if_pos hemp] at hrun
      rw [← Option.some.inj hrun]
      intro x hx
      simp [submit_jobs, initScheduler] at hx
    · rw [if_neg hemp] at hrun
      cases hm : argminFiltered (fun _ => true) Job.arrival_time
          (submit_jobs (initScheduler q) jobs).job_list with
      | none => rw [hm] at hrun; simp at hrun
      | some i0 =>
        rw [hm] at hrun
        refine srtn_loop_valid fuel _ i0 s' ?_ ?_ hrun
        · intro j hj hff
          have hjm : j ∈ jobs := by simpa [submit_jobs, initScheduler] using hj
          rw [hfresh j hjm] at hff
          exact absurd hff (by simp)
        · intro j hj
          simp [submit_jobs, initScheduler] at hj
  · intro s i s' i' k j j' hstep hk hk' hf
    exact first_stable_of_shape (rrStep_shape s i s' i' hstep) k j j' hk hk' hf
  · intro s i s' i' k j j' hstep hk hk' hf
    exact first_stable_of_shape (srtnStep_shape s i s' i' hstep) k j j' hk hk' hf

/-- Witness for `C8_first_run_bounds`: the round-robin conjunct applied to the
quantum-2 example run, instantiated at completed job 1
(arrival 1 ≤ first run 2 ≤ completion 9). -/
theorem C8_first_run_bounds_witness :
    ((1 : Int) ≤ 2) ∧
    (∀ j ∈ exampleJobs, j.is_first_run = true) ∧
    scheduler_rr 30 (submit_jobs (initScheduler 2) exampleJobs) = some rrExampleRun ∧
    rrExampleJob1 ∈ rrExampleRun.completed_jobs ∧
    rrExampleJob1.arrival_time ≤ rrExampleJob1.first_time_running ∧
    rrExampleJob1.first_time_running ≤ rrExampleJob1.completion_time :=
  ⟨by decide, by decide, by decide, by decide,
    C8_first_run_bounds.2.1 exampleJobs 2 30 rrExampleRun (by decide) (by decide) (by decide)
      rrExampleJob1 (by decide)⟩
